import Mathlib

/-!
Verification development for the ansible-bsr repository.

The repository manages ZFS-style datasets and NFS/SMB shares on a storage
appliance.  This file shallowly embeds the parts of the code relevant to the
frozen claims:

* `module_utils/netacl.py`  — the `IPNetHostList` address-list parser and the
  `raise_on_conflict` cross-list validator;
* `module_utils/nfs.py` / `module_utils/smb.py` — the share descriptors and
  their `validate_access_lists` / `__str__` serialization;
* `module_utils/api_datasets.py` — the `Dataset` property model
  (`merge`, `diff`, `_dataset_props`, `create_dataset`);
* `module_utils/api.py` — `_parse_dataset_details` and the recursive
  `destroy_dataset` client.

Python strings are modelled as `List Char`; machine integers do not occur
(all arithmetic is on unbounded Python ints, modelled as `Nat`).  Fallible
code returns `Except`/`Option`; stateful code passes state explicitly.
-/

/-! ## Basic character/string utilities -/

/-- Split a character list on a separator, Python `str.split(sep)` semantics:
the result always has at least one (possibly empty) part. -/
def splitSep (sep : Char) : List Char → List (List Char)
  | [] => [[]]
  | c :: rest =>
    if c = sep then [] :: splitSep sep rest
    else
      match splitSep sep rest with
      | [] => [[c]]
      | p :: ps => (c :: p) :: ps

/-- Join parts with a single separator character, Python `sep.join(parts)`
semantics. -/
def joinSep (sep : Char) : List (List Char) → List Char
  | [] => []
  | [p] => p
  | p :: q :: rest => p ++ sep :: joinSep sep (q :: rest)

theorem splitSep_ne_nil (sep : Char) (s : List Char) : splitSep sep s ≠ [] := by
  induction s with
  | nil => simp [splitSep]
  | cons c rest ih =>
    simp only [splitSep]
    split
    · simp
    · cases h : splitSep sep rest with
      | nil => simp
      | cons p ps => simp

theorem not_mem_of_mem_splitSep (sep : Char) (s : List Char) :
    ∀ p ∈ splitSep sep s, sep ∉ p := by
  induction s with
  | nil => intro p hp; simp [splitSep] at hp; simp [hp]
  | cons c rest ih =>
    intro p hp
    simp only [splitSep] at hp
    by_cases hc : c = sep
    · simp [hc] at hp
      rcases hp with h | h
      · simp [h]
      · exact ih p h
    · simp [hc] at hp
      cases hsp : splitSep sep rest with
      | nil => exact absurd hsp (splitSep_ne_nil sep rest)
      | cons q qs =>
        rw [hsp] at hp
        simp at hp
        rcases hp with h | h
        · subst h
          intro hmem
          simp at hmem
          rcases hmem with h | h
          · exact hc h.symm
          · exact ih q (by simp [hsp]) h
        · exact ih p (by simp [hsp, h])

theorem splitSep_of_not_mem (sep : Char) (s : List Char) (h : sep ∉ s) :
    splitSep sep s = [s] := by
  induction s with
  | nil => simp [splitSep]
  | cons c rest ih =>
    simp at h
    simp only [splitSep]
    rw [if_neg (fun hc => h.1 hc.symm), ih h.2]

theorem splitSep_append_sep (sep : Char) (a b : List Char) (ha : sep ∉ a) :
    splitSep sep (a ++ sep :: b) = a :: splitSep sep b := by
  induction a with
  | nil => simp [splitSep]
  | cons c rest ih =>
    simp at ha
    have hrec := ih ha.2
    simp only [List.cons_append, splitSep, List.append_eq, hrec]
    rw [if_neg (fun hc => ha.1 hc.symm)]

theorem splitSep_joinSep (sep : Char) (parts : List (List Char))
    (hne : parts ≠ []) (hs : ∀ p ∈ parts, sep ∉ p) :
    splitSep sep (joinSep sep parts) = parts := by
  induction parts with
  | nil => exact absurd rfl hne
  | cons p ps ih =>
    cases ps with
    | nil => simp [joinSep, splitSep_of_not_mem sep p (hs p (by simp))]
    | cons q qs =>
      simp only [joinSep]
      rw [splitSep_append_sep sep p _ (hs p (by simp))]
      rw [ih (by simp) (fun r hr => hs r (by simp [hr]))]

/-! ## Lexicographic order on character lists (Python string comparison) -/

/-- Strict lexicographic comparison of character lists by code point,
matching Python `str.__lt__`. -/
def lexLt : List Char → List Char → Bool
  | [], [] => false
  | [], _ :: _ => true
  | _ :: _, [] => false
  | a :: as, b :: bs =>
    if a < b then true
    else if b < a then false
    else lexLt as bs

/-- Non-strict lexicographic comparison. -/
def lexLe (a b : List Char) : Bool := lexLt a b || a == b

theorem lexLt_irrefl (a : List Char) : lexLt a a = false := by
  induction a with
  | nil => rfl
  | cons c rest ih => simp [lexLt, ih]

theorem lexLt_trans {a b c : List Char} (h1 : lexLt a b = true)
    (h2 : lexLt b c = true) : lexLt a c = true := by
  induction a generalizing b c with
  | nil =>
    cases c with
    | nil =>
      cases b with
      | nil => exact absurd h1 (by simp [lexLt])
      | cons y ys => exact absurd h2 (by simp [lexLt])
    | cons z zs => rfl
  | cons x xs ih =>
    cases b with
    | nil => exact absurd h1 (by simp [lexLt])
    | cons y ys =>
      cases c with
      | nil => exact absurd h2 (by simp [lexLt])
      | cons z zs =>
        simp only [lexLt] at h1 h2 ⊢
        rcases lt_trichotomy x y with hxy | hxy | hxy
        · rcases lt_trichotomy y z with hyz | hyz | hyz
          · simp [lt_trans hxy hyz]
          · subst hyz; simp [hxy]
          · rw [if_pos hxy] at h1
            rw [if_neg (lt_asymm hyz), if_pos hyz] at h2
            exact absurd h2 (by simp)
        · subst hxy
          rw [if_neg (lt_irrefl x), if_neg (lt_irrefl x)] at h1
          rcases lt_trichotomy x z with hyz | hyz | hyz
          · simp [hyz]
          · subst hyz
            rw [if_neg (lt_irrefl x), if_neg (lt_irrefl x)] at h2 ⊢
            exact ih h1 h2
          · rw [if_neg (lt_asymm hyz), if_pos hyz] at h2
            exact absurd h2 (by simp)
        · rw [if_neg (lt_asymm hxy), if_pos hxy] at h1
          exact absurd h1 (by simp)

theorem lexLt_total {a b : List Char} (h1 : lexLt a b = false)
    (h2 : lexLt b a = false) : a = b := by
  induction a generalizing b with
  | nil =>
    cases b with
    | nil => rfl
    | cons y ys => exact absurd h1 (by simp [lexLt])
  | cons x xs ih =>
    cases b with
    | nil => exact absurd h2 (by simp [lexLt])
    | cons y ys =>
      simp only [lexLt] at h1 h2
      rcases lt_trichotomy x y with hxy | hxy | hxy
      · rw [if_pos hxy] at h1; exact absurd h1 (by simp)
      · subst hxy
        rw [if_neg (lt_irrefl x), if_neg (lt_irrefl x)] at h1 h2
        rw [ih h1 h2]
      · rw [if_pos hxy] at h2; exact absurd h2 (by simp)

theorem lexLt_asymm {a b : List Char} (h : lexLt a b = true) :
    lexLt b a = false := by
  by_contra hc
  have h2 : lexLt b a = true := by
    cases hv : lexLt b a
    · exact absurd hv hc
    · rfl
  have := lexLt_trans h h2
  rw [lexLt_irrefl] at this
  exact absurd this (by simp)

/-! ## Decimal digits and octets

Models the relevant behavior of Python's `ipaddress` module (CPython 3.9+):
octets are 1-3 ASCII digits, no leading zeros, value at most 255. -/

/-- Character for a single decimal digit value. -/
def digitChar : Nat → Char
  | 0 => '0' | 1 => '1' | 2 => '2' | 3 => '3' | 4 => '4'
  | 5 => '5' | 6 => '6' | 7 => '7' | 8 => '8' | 9 => '9'
  | _ => '*'

/-- Numeric value of a decimal digit character. -/
def digitVal (c : Char) : Nat := c.toNat - '0'.toNat

/-- Value of a digit string, Python `int(s)` for nonnegative digit strings. -/
def digitsToNat (s : List Char) : Nat :=
  s.foldl (fun acc c => acc * 10 + digitVal c) 0

/-- Parse one octet of a dotted-quad IPv4 address, mirroring CPython
`ipaddress.IPv4Address._parse_octet`: only digits, at most 3 of them, no
leading zero, value at most 255. -/
def parseOctet (s : List Char) : Option Nat :=
  if s = [] then none
  else if ¬ s.all Char.isDigit then none
  else if s.length > 3 then none
  else if s.headI = '0' ∧ s ≠ ['0'] then none
  else if digitsToNat s ≤ 255 then some (digitsToNat s) else none

/-- Canonical decimal rendering of an octet value (0-255). -/
def printOctet (n : Nat) : List Char :=
  if n < 10 then [digitChar n]
  else if n < 100 then [digitChar (n / 10), digitChar (n % 10)]
  else [digitChar (n / 100), digitChar (n / 10 % 10), digitChar (n % 10)]

set_option maxRecDepth 4096

theorem parseOctet_printOctet : ∀ n < 256, parseOctet (printOctet n) = some n := by decide

theorem printOctet_all_digits : ∀ n < 256, (printOctet n).all Char.isDigit = true := by decide

theorem printOctet_ne_nil : ∀ n < 256, printOctet n ≠ [] := by decide

theorem digit_not_alpha (c : Char) (h : c.isDigit = true) : c.isAlpha = false := by
  simp only [Char.isDigit, Char.isAlpha, Char.isUpper, Char.isLower, Bool.and_eq_true,
    decide_eq_true_eq, Bool.or_eq_false_iff, Bool.and_eq_false_iff,
    decide_eq_false_iff_not] at h ⊢
  obtain ⟨h1, h2⟩ := h
  have g1 : c.val.toNat ≤ 57 := h2
  have g2 : 48 ≤ c.val.toNat := h1
  constructor
  · left
    intro hc
    have : (65 : Nat) ≤ c.val.toNat := hc
    omega
  · left
    intro hc
    have : (97 : Nat) ≤ c.val.toNat := hc
    omega

theorem digit_ne_of_isDigit (c : Char) (h : c.isDigit = true) :
    c ≠ '.' ∧ c ≠ '/' ∧ c ≠ ':' ∧ c ≠ '@' := by
  refine ⟨?_, ?_, ?_, ?_⟩ <;> (intro hc; subst hc; simp [Char.isDigit] at h)

theorem parseOctet_le {s : List Char} {n : Nat} (h : parseOctet s = some n) : n ≤ 255 := by
  unfold parseOctet at h
  split at h
  · simp at h
  split at h
  · simp at h
  split at h
  · simp at h
  split at h
  · simp at h
  split at h
  case isTrue hle => simp at h; omega
  case isFalse => simp at h

theorem parseOctet_all_digits {s : List Char} {n : Nat} (h : parseOctet s = some n) :
    s.all Char.isDigit = true := by
  unfold parseOctet at h
  split at h
  · simp at h
  split at h
  case isTrue => simp at h
  case isFalse hd =>
    split at h
    · simp at h
    split at h
    · simp at h
    cases hv : s.all Char.isDigit
    · exact absurd hv (by simpa using hd)
    · rfl

/-! ## IPv4 addresses

An address is a `Nat` below 2^32.  Parsing mirrors
`ipaddress.IPv4Address(str)`: exactly four octets joined with dots. -/

/-- Parse a dotted-quad IPv4 address string into its numeric value. -/
def parseIPv4 (s : List Char) : Option Nat :=
  match splitSep '.' s with
  | [a, b, c, d] => do
    let oa ← parseOctet a
    let ob ← parseOctet b
    let oc ← parseOctet c
    let od ← parseOctet d
    pure (((oa * 256 + ob) * 256 + oc) * 256 + od)
  | _ => none

/-- Canonical dotted-quad rendering of an IPv4 address value. -/
def printIPv4 (n : Nat) : List Char :=
  printOctet (n / 16777216) ++ '.' ::
  (printOctet (n / 65536 % 256) ++ '.' ::
  (printOctet (n / 256 % 256) ++ '.' :: printOctet (n % 256)))

theorem parseIPv4_lt {s : List Char} {n : Nat} (h : parseIPv4 s = some n) :
    n < 4294967296 := by
  unfold parseIPv4 at h
  split at h
  · rename_i xs a b c d heq
    cases ha : parseOctet a with
    | none => simp [ha] at h
    | some oa =>
      cases hb : parseOctet b with
      | none => simp [ha, hb] at h
      | some ob =>
        cases hc : parseOctet c with
        | none => simp [ha, hb, hc] at h
        | some oc =>
          cases hd : parseOctet d with
          | none => simp [ha, hb, hc, hd] at h
          | some od =>
            simp [ha, hb, hc, hd] at h
            have g1 := parseOctet_le ha
            have g2 := parseOctet_le hb
            have g3 := parseOctet_le hc
            have g4 := parseOctet_le hd
            omega
  · simp at h

theorem not_mem_printOctet {c : Char} {n : Nat} (hn : n < 256)
    (hc : c.isDigit = false) : c ∉ printOctet n := by
  intro hmem
  have hall := printOctet_all_digits n hn
  rw [List.all_eq_true] at hall
  rw [hall c hmem] at hc
  exact absurd hc (by simp)

theorem dot_not_digit : ('.').isDigit = false := by decide

theorem slash_not_digit : ('/').isDigit = false := by decide

theorem colon_not_digit : (':').isDigit = false := by decide

theorem parseIPv4_printIPv4 {n : Nat} (h : n < 4294967296) :
    parseIPv4 (printIPv4 n) = some n := by
  have h1 : n / 16777216 < 256 := by omega
  have h2 : n / 65536 % 256 < 256 := Nat.mod_lt _ (by norm_num)
  have h3 : n / 256 % 256 < 256 := Nat.mod_lt _ (by norm_num)
  have h4 : n % 256 < 256 := Nat.mod_lt _ (by norm_num)
  unfold parseIPv4 printIPv4
  rw [splitSep_append_sep '.' _ _ (not_mem_printOctet h1 dot_not_digit)]
  rw [splitSep_append_sep '.' _ _ (not_mem_printOctet h2 dot_not_digit)]
  rw [splitSep_append_sep '.' _ _ (not_mem_printOctet h3 dot_not_digit)]
  rw [splitSep_of_not_mem '.' _ (not_mem_printOctet h4 dot_not_digit)]
  simp only [parseOctet_printOctet _ h1, parseOctet_printOctet _ h2,
    parseOctet_printOctet _ h3, parseOctet_printOctet _ h4, Option.bind_some]
  have : ((n / 16777216 * 256 + n / 65536 % 256) * 256 + n / 256 % 256) * 256 + n % 256 = n := by
    omega
  simp [this]

theorem mem_printIPv4 {c : Char} {n : Nat} (hn : n < 4294967296)
    (hmem : c ∈ printIPv4 n) : c.isDigit = true ∨ c = '.' := by
  have h1 : n / 16777216 < 256 := by omega
  have h2 : n / 65536 % 256 < 256 := Nat.mod_lt _ (by norm_num)
  have h3 : n / 256 % 256 < 256 := Nat.mod_lt _ (by norm_num)
  have h4 : n % 256 < 256 := Nat.mod_lt _ (by norm_num)
  unfold printIPv4 at hmem
  simp at hmem
  have dig : ∀ m : Nat, m < 256 → c ∈ printOctet m → c.isDigit = true := by
    intro m hm hcm
    have hall := printOctet_all_digits m hm
    rw [List.all_eq_true] at hall
    exact hall c hcm
  rcases hmem with h | h | h | h | h | h | h
  · exact Or.inl (dig _ h1 h)
  · exact Or.inr h
  · exact Or.inl (dig _ h2 h)
  · exact Or.inr h
  · exact Or.inl (dig _ h3 h)
  · exact Or.inr h
  · exact Or.inl (dig _ h4 h)

/-! ## IPv4 networks

Mirrors `ipaddress.IPv4Network(str)` in its default strict mode: at most one
slash, dotted-quad address part, prefix part either a decimal prefix length
or a dotted netmask/hostmask, and host bits beyond the prefix must be zero
(else `... has host bits set`). -/

/-- Prefix length encoded by a netmask value (ones from the top), CPython
`_prefix_from_ip_int`; `none` when the mask is not left-contiguous. -/
def prefixFromMask (m : Nat) : Option Nat :=
  (List.range 33).find? (fun p => m = 4294967296 - 2 ^ (32 - p))

/-- Parse the part after the slash of a network literal: either a decimal
prefix length (CPython `_prefix_from_prefix_string`) or a dotted
netmask/hostmask (the `_make_netmask` fallbacks). -/
def parseNetPart (s : List Char) : Option Nat :=
  if s ≠ [] ∧ s.all Char.isDigit then
    if digitsToNat s ≤ 32 then some (digitsToNat s) else none
  else
    match parseIPv4 s with
    | none => none
    | some m =>
      match prefixFromMask m with
      | some p => some p
      | none => prefixFromMask (4294967295 - m)

/-- An IPv4 network: network address value and prefix length. -/
structure IPv4Net where
  addr : Nat
  plen : Nat
deriving DecidableEq, Repr

/-- Parse an IPv4 network literal in strict mode
(`ipaddress.IPv4Network(s)`). -/
def parseIPv4Net (s : List Char) : Option IPv4Net :=
  match splitSep '/' s with
  | [a] => (parseIPv4 a).map (fun h => ⟨h, 32⟩)
  | [a, m] => do
    let h ← parseIPv4 a
    let p ← parseNetPart m
    if h % 2 ^ (32 - p) = 0 then pure (⟨h, p⟩ : IPv4Net) else none
  | _ => none

/-- Decimal rendering of a prefix length (0-32). -/
def printPlen (n : Nat) : List Char :=
  if n < 10 then [digitChar n] else [digitChar (n / 10), digitChar (n % 10)]

/-- Canonical rendering of a network, Python `str(IPv4Network)`. -/
def printNet (n : IPv4Net) : List Char :=
  printIPv4 n.addr ++ '/' :: printPlen n.plen

theorem parseNetPart_printPlen : ∀ p < 33, parseNetPart (printPlen p) = some p := by decide

theorem printPlen_all_digits : ∀ p < 33, (printPlen p).all Char.isDigit = true := by decide

/-- Well-formedness of a network value as produced by a successful strict
parse: in range, valid prefix, no host bits set. -/
def GoodNet (n : IPv4Net) : Prop :=
  n.addr < 4294967296 ∧ n.plen ≤ 32 ∧ n.addr % 2 ^ (32 - n.plen) = 0

theorem parseNetPart_le {s : List Char} {p : Nat} (h : parseNetPart s = some p) :
    p ≤ 32 := by
  unfold parseNetPart at h
  split at h
  · split at h
    · simp at h; omega
    · simp at h
  · split at h
    · simp at h
    · rename_i m hm
      have hfind : ∀ q l, (List.range l).find? (fun p => m = 4294967296 - 2 ^ (32 - p)) = some q → q < l := by
        intro q l hq
        have := List.find?_some hq
        have hmem := List.mem_of_find?_eq_some hq
        simpa using hmem
      have hfind2 : ∀ q l x, (List.range l).find? (fun p => x = 4294967296 - 2 ^ (32 - p)) = some q → q < l := by
        intro q l x hq
        have hmem := List.mem_of_find?_eq_some hq
        simpa using hmem
      split at h
      · rename_i q hq
        have := hfind2 q 33 m hq
        simp at h
        omega
      · have := hfind2 p 33 (4294967295 - m) h
        omega

theorem parseIPv4Net_good {s : List Char} {n : IPv4Net}
    (h : parseIPv4Net s = some n) : GoodNet n := by
  unfold parseIPv4Net at h
  split at h
  · rename_i xs a heq
    cases ha : parseIPv4 a with
    | none => simp [ha] at h
    | some v =>
      simp [ha] at h
      have := parseIPv4_lt ha
      subst h
      exact ⟨this, by norm_num, Nat.mod_one v⟩
  · rename_i xs a m heq
    cases ha : parseIPv4 a with
    | none => simp [ha] at h
    | some v =>
      cases hp : parseNetPart m with
      | none => simp [ha, hp] at h
      | some p =>
        simp [ha, hp] at h
        obtain ⟨hz, h⟩ := h
        subst h
        exact ⟨parseIPv4_lt ha, parseNetPart_le hp, hz⟩
  · simp at h

theorem parseIPv4Net_printNet {n : IPv4Net} (h : GoodNet n) :
    parseIPv4Net (printNet n) = some n := by
  obtain ⟨h1, h2, h3⟩ := h
  have hplt : n.plen < 33 := by omega
  have hslash : '/' ∉ printIPv4 n.addr := by
    intro hmem
    rcases mem_printIPv4 h1 hmem with hd | hd
    · simp at hd
    · simp at hd
  have hslash2 : '/' ∉ printPlen n.plen := by
    intro hmem
    have hall := printPlen_all_digits n.plen hplt
    rw [List.all_eq_true] at hall
    have hdg := hall _ hmem
    simp at hdg
  unfold parseIPv4Net printNet
  rw [splitSep_append_sep '/' _ _ hslash, splitSep_of_not_mem '/' _ hslash2]
  simp only [parseIPv4_printIPv4 h1, parseNetPart_printPlen n.plen hplt, Option.bind_some]
  simp [h3]

/-! ## Membership and overlap (Python `ipaddress` semantics) -/

/-- Loopback test, `IPv4Address.is_loopback` (membership in 127.0.0.0/8). -/
def isLoopback (h : Nat) : Bool := h / 16777216 == 127

/-- Broadcast (highest) address of a network. -/
def broadcastOf (n : IPv4Net) : Nat := n.addr + (2 ^ (32 - n.plen) - 1)

/-- Address-in-network test, Python `addr in network`
(`network_address <= addr <= broadcast_address`). -/
def inNet (h : Nat) (n : IPv4Net) : Bool :=
  decide (n.addr ≤ h) && decide (h ≤ broadcastOf n)

/-- Network overlap test, Python `IPv4Network.overlaps`. -/
def netOverlaps (a b : IPv4Net) : Bool :=
  inNet a.addr b || inNet (broadcastOf a) b || inNet b.addr a || inNet (broadcastOf b) a

/-! ## The IP4_RE regular expression

`netacl.py` uses
`(\b25[0-5]|\b2[0-4][0-9]|\b[01]?[0-9][0-9]?)(\.(25[0-5]|2[0-4][0-9]|[01]?[0-9][0-9]?)){3}`
with `re.match` (anchored at the start, trailing characters allowed).  Since
the pattern has no captures we model it existentially: the possible
remainders after consuming one octet alternative at the front, then three
repetitions of a dot followed by an octet alternative. -/

/-- Remainders of the string after one octet alternative consumed at the
front.  All alternatives start with a digit, so the leading `\b` of the
anchored match is vacuous. -/
def matchOctet : List Char → List (List Char)
  | [] => []
  | a :: rest =>
    if a.isDigit then
      [rest] ++
      (match rest with
       | [] => []
       | b :: rest2 =>
         if b.isDigit then
           [rest2] ++
           (match rest2 with
            | [] => []
            | c :: rest3 =>
              if c.isDigit ∧ (a = '0' ∨ a = '1' ∨
                  (a = '2' ∧ (b ≤ '4' ∨ (b = '5' ∧ c ≤ '5')))) then
                [rest3]
              else [])
         else [])
    else []

/-- Remainders after consuming a dot followed by an octet alternative. -/
def matchDotOctet : List Char → List (List Char)
  | '.' :: rest => matchOctet rest
  | _ => []

/-- Whether `IP4_RE.match(s)` succeeds (a prefix of `s` matches). -/
def ip4ReMatch (s : List Char) : Bool :=
  (matchOctet s).any fun r1 =>
    (matchDotOctet r1).any fun r2 =>
      (matchDotOctet r2).any fun r3 =>
        !(matchDotOctet r3).isEmpty

theorem matchOctet_head_digit {s : List Char} (h : matchOctet s ≠ []) :
    ∃ a rest, s = a :: rest ∧ a.isDigit = true := by
  cases s with
  | nil => simp [matchOctet] at h
  | cons a rest =>
    refine ⟨a, rest, rfl, ?_⟩
    by_contra hd
    have : a.isDigit = false := by
      cases hv : a.isDigit
      · rfl
      · exact absurd hv hd
    simp [matchOctet, this] at h

theorem ip4ReMatch_head_digit {s : List Char} (h : ip4ReMatch s = true) :
    ∃ a rest, s = a :: rest ∧ a.isDigit = true := by
  apply matchOctet_head_digit
  intro hnil
  unfold ip4ReMatch at h
  rw [hnil] at h
  simp at h

theorem char_eq_of_toNat {a b : Char} (h : a.toNat = b.toNat) : a = b := by
  apply Char.ext
  apply UInt32.ext
  exact h

theorem char_le_of_toNat {a b : Char} (h : a.toNat ≤ b.toNat) : a ≤ b := h

theorem isDigit_bounds {c : Char} (h : c.isDigit = true) :
    48 ≤ c.toNat ∧ c.toNat ≤ 57 := by
  simp only [Char.isDigit, Bool.and_eq_true, decide_eq_true_eq] at h
  exact ⟨h.1, h.2⟩

theorem digitVal_eq (c : Char) : digitVal c = c.toNat - 48 := rfl

/-- A fully valid octet string is consumed whole by one of the regex octet
alternatives. -/
theorem matchOctet_of_parseOctet {o : List Char} {v : Nat} (h : parseOctet o = some v)
    (r : List Char) : r ∈ matchOctet (o ++ r) := by
  unfold parseOctet at h
  split at h
  · simp at h
  split at h
  · simp at h
  split at h
  · simp at h
  split at h
  · simp at h
  rename_i hne hdig hlen hlead
  rw [not_not] at hdig
  rw [List.all_eq_true] at hdig
  split at h
  case isFalse => simp at h
  case isTrue hval =>
  rcases o with _ | ⟨a, _ | ⟨b, _ | ⟨c, _ | ⟨d, rest⟩⟩⟩⟩
  · exact absurd rfl hne
  · -- single digit
    have ha := hdig a (by simp)
    simp [matchOctet, List.cons_append, ha]
  · -- two digits
    have ha := hdig a (by simp)
    have hb := hdig b (by simp)
    simp [matchOctet, List.cons_append, ha, hb]
  · -- three digits: the value bound forces one of the regex alternatives
    have ha := hdig a (by simp)
    have hb := hdig b (by simp)
    have hc := hdig c (by simp)
    have hva := isDigit_bounds ha
    have hvb := isDigit_bounds hb
    have hvc := isDigit_bounds hc
    have hlead2 : a ≠ '0' := by
      intro hha
      exact hlead ⟨by simp [List.headI, hha], by simp⟩
    have hane : a.toNat ≠ 48 := by
      intro hx
      exact hlead2 (char_eq_of_toNat (by rw [hx]; rfl))
    have hsum : digitsToNat [a, b, c] = (digitVal a * 10 + digitVal b) * 10 + digitVal c := by
      simp [digitsToNat]
    rw [hsum, digitVal_eq, digitVal_eq, digitVal_eq] at hval
    have hcase : a = '0' ∨ a = '1' ∨ (a = '2' ∧ (b ≤ '4' ∨ (b = '5' ∧ c ≤ '5'))) := by
      have hava : a.toNat = 49 ∨ a.toNat = 50 := by omega
      rcases hava with hx | hx
      · exact Or.inr (Or.inl (char_eq_of_toNat (by rw [hx]; rfl)))
      · refine Or.inr (Or.inr ⟨char_eq_of_toNat (by rw [hx]; rfl), ?_⟩)
        by_cases hb4 : b.toNat ≤ 52
        · exact Or.inl (char_le_of_toNat (by rw [show ('4').toNat = 52 from rfl]; exact hb4))
        · have hb5 : b.toNat = 53 := by omega
          refine Or.inr ⟨char_eq_of_toNat (by rw [hb5]; rfl), ?_⟩
          have hc5 : c.toNat ≤ 53 := by omega
          exact char_le_of_toNat (by rw [show ('5').toNat = 53 from rfl]; exact hc5)
    simp only [List.cons_append, List.nil_append, matchOctet, ha, hb, if_true]
    have hcond : (c.isDigit = true) ∧ (a = '0' ∨ a = '1' ∨
        (a = '2' ∧ (b ≤ '4' ∨ (b = '5' ∧ c ≤ '5')))) := ⟨hc, hcase⟩
    simp [hc, hcase]
  · -- length at least four: contradicts the length bound
    exfalso
    apply hlen
    simp

theorem joinSep_splitSep (sep : Char) (s : List Char) :
    joinSep sep (splitSep sep s) = s := by
  induction s with
  | nil => rfl
  | cons c rest ih =>
    simp only [splitSep]
    split
    · rename_i hc
      cases hsp : splitSep sep rest with
      | nil => exact absurd hsp (splitSep_ne_nil _ _)
      | cons p ps =>
        rw [hsp] at ih
        simp [joinSep, ih, hc]
    · rename_i hc
      cases hsp : splitSep sep rest with
      | nil => exact absurd hsp (splitSep_ne_nil _ _)
      | cons p ps =>
        rw [hsp] at ih
        cases ps with
        | nil => simp [joinSep] at ih ⊢; exact ih
        | cons q qs => simp [joinSep] at ih ⊢; exact ih

theorem matchDotOctet_cons (rest : List Char) :
    matchDotOctet ('.' :: rest) = matchOctet rest := rfl

theorem ip4ReMatch_of_parseIPv4 {s : List Char} {v : Nat} (h : parseIPv4 s = some v) :
    ip4ReMatch s = true := by
  unfold parseIPv4 at h
  split at h
  · rename_i xs a b c d heq
    cases ha : parseOctet a with
    | none => simp [ha] at h
    | some oa =>
    cases hb : parseOctet b with
    | none => simp [ha, hb] at h
    | some ob =>
    cases hc : parseOctet c with
    | none => simp [ha, hb, hc] at h
    | some oc =>
    cases hd : parseOctet d with
    | none => simp [ha, hb, hc, hd] at h
    | some od =>
    have hs : s = a ++ '.' :: (b ++ '.' :: (c ++ '.' :: d)) := by
      conv_lhs => rw [← joinSep_splitSep '.' s]
      rw [heq]
      simp [joinSep]
    rw [hs]
    unfold ip4ReMatch
    rw [List.any_eq_true]
    refine ⟨'.' :: (b ++ '.' :: (c ++ '.' :: d)), matchOctet_of_parseOctet ha _, ?_⟩
    rw [List.any_eq_true]
    refine ⟨'.' :: (c ++ '.' :: d), ?_, ?_⟩
    · rw [matchDotOctet_cons]
      exact matchOctet_of_parseOctet hb _
    rw [List.any_eq_true]
    refine ⟨'.' :: d, ?_, ?_⟩
    · rw [matchDotOctet_cons]
      exact matchOctet_of_parseOctet hc _
    · rw [matchDotOctet_cons]
      have hmem := matchOctet_of_parseOctet hd ([] : List Char)
      rw [List.append_nil] at hmem
      cases hmo : matchOctet d with
      | nil => rw [hmo] at hmem; simp at hmem
      | cons x xs2 => simp [hmo]
  · simp at h

/-! ## netacl.py: IPNetHostList -/

/-- Error outcomes of the netacl code.  `invalidAddressSpecification` is the
module's own exception; `typeError` models the `TypeError` raised by
`IPNetHostList.__init__`; `addressValueError` and `netValueError` model
`ipaddress` exceptions escaping uncaught from `_split_nets_and_hosts`;
`attributeError` models `AttributeError` from attribute access on `None`;
`valueError` models the `ValueError` raised by share option validation. -/
inductive NetaclError where
  | invalidAddressSpecification
  | typeError
  | addressValueError
  | netValueError
  | attributeError
  | valueError
deriving DecidableEq, Repr

/-- Embeds `IPNetHostList._validate_addr`: a token containing a slash must
parse as a strict IPv4 network; otherwise it must parse as an IPv4 address
and must not be a loopback address. -/
def validate_addr (a : List Char) : Except NetaclError Unit :=
  if a.contains '/' then
    match parseIPv4Net a with
    | some _ => .ok ()
    | none => .error .invalidAddressSpecification
  else
    match parseIPv4 a with
    | some h =>
      if isLoopback h then .error .invalidAddressSpecification else .ok ()
    | none => .error .invalidAddressSpecification

/-- Processing of one token inside `_list_from_addrs_string`: empty tokens
are skipped, `@`-prefixed tokens are validated and kept, tokens matching
`IP4_RE` are validated and get an `@` prefix, anything else is kept
verbatim as a symbolic name. -/
def processToken (t : List Char) : Except NetaclError (List (List Char)) :=
  if t = [] then .ok []
  else if t.headI = '@' then
    match validate_addr t.tail with
    | .ok _ => .ok [t]
    | .error e => .error e
  else if ip4ReMatch t then
    match validate_addr t with
    | .ok _ => .ok ['@' :: t]
    | .error e => .error e
  else .ok [t]

/-- The token loop of `_list_from_addrs_string`. -/
def tokensFromList : List (List Char) → Except NetaclError (List (List Char))
  | [] => .ok []
  | t :: rest => do
    let out ← processToken t
    let rest2 ← tokensFromList rest
    pure (out ++ rest2)

/-- Embeds `IPNetHostList._list_from_addrs_string`. -/
def list_from_addrs_string (s : List Char) : Except NetaclError (List (List Char)) :=
  tokensFromList (splitSep ':' s)

/-- A classified element of an address list. -/
inductive Entry where
  | host (h : Nat)
  | net (n : IPv4Net)
  | name (s : List Char)
deriving DecidableEq, Repr

/-- Classification of one element inside `_split_nets_and_hosts`: empty
elements are skipped; an element starting with a letter is a name; an
element containing a slash re-parses as a network (stripping a leading
`@`), errors uncaught; anything else re-parses as a host address, errors
uncaught. -/
def classifyElem (e : List Char) : Except NetaclError (Option Entry) :=
  if e = [] then .ok none
  else if e.headI.isAlpha then .ok (some (.name e))
  else if e.contains '/' then
    match parseIPv4Net (if e.headI = '@' then e.tail else e) with
    | some n => .ok (some (.net n))
    | none => .error .netValueError
  else
    match parseIPv4 (if e.headI = '@' then e.tail else e) with
    | some h => .ok (some (.host h))
    | none => .error .addressValueError

/-- The element loop of `_split_nets_and_hosts`. -/
def entriesFromElems : List (List Char) → Except NetaclError (List Entry)
  | [] => .ok []
  | e :: rest => do
    let ent ← classifyElem e
    let rest2 ← entriesFromElems rest
    pure ((match ent with | some x => [x] | none => []) ++ rest2)

/-- Selector for hosts among classified entries. -/
def hostOfEntry : Entry → Option Nat
  | .host h => some h
  | _ => none

/-- Selector for nets among classified entries. -/
def netOfEntry : Entry → Option IPv4Net
  | .net n => some n
  | _ => none

/-- Selector for names among classified entries. -/
def nameOfEntry : Entry → Option (List Char)
  | .name s => some s
  | _ => none

/-- Embeds `IPNetHostList._split_nets_and_hosts`: partitions the element
list into hosts, nets and other names, preserving relative order. -/
def split_nets_and_hosts (l : List (List Char)) :
    Except NetaclError (List Nat × List IPv4Net × List (List Char)) := do
  let entries ← entriesFromElems l
  pure (entries.filterMap hostOfEntry,
        entries.filterMap netOfEntry,
        entries.filterMap nameOfEntry)

/-- The `IPNetHostList` object: the normalized token list and the three
derived views. -/
structure IPNetHostList where
  addrsList : List (List Char)
  hosts : List Nat
  nets : List IPv4Net
  others : List (List Char)
deriving DecidableEq, Repr

/-- Constructor argument of `IPNetHostList.__init__`: a string, a list of
token strings, or anything else (including the default `None`), which the
constructor rejects with `TypeError`. -/
inductive AddrsInput where
  | str (s : List Char)
  | list (l : List (List Char))
  | invalidType

/-- Embeds `IPNetHostList.__init__`. -/
def mkIPNetHostList : AddrsInput → Except NetaclError IPNetHostList
  | .invalidType => .error .typeError
  | .list l => do
    let tr ← split_nets_and_hosts l
    pure ⟨l, tr.1, tr.2.1, tr.2.2⟩
  | .str s => do
    let l ← list_from_addrs_string s
    let tr ← split_nets_and_hosts l
    pure ⟨l, tr.1, tr.2.1, tr.2.2⟩

/-- Embeds `IPNetHostList.__str__`: nets then hosts, `@`-prefixed, then the
names, all joined with colons. -/
def ipListStr (l : IPNetHostList) : List Char :=
  joinSep ':' (l.nets.map (fun n => '@' :: printNet n) ++
               l.hosts.map (fun h => '@' :: printIPv4 h) ++ l.others)

/-! ## netacl.py: raise_on_conflict -/

/-- The first conflict found by `raise_on_conflict`, carrying the data that
the raised `InvalidAddressSpecification` message names. -/
inductive Conflict where
  | hostInBoth (h : Nat)
  | netOverlap (a b : IPv4Net)
  | roHostInRwNet (h : Nat) (n : IPv4Net)
  | rwHostInRoNet (h : Nat) (n : IPv4Net)
  | nameInBoth (s : List Char)
deriving DecidableEq, Repr

/-- First host address present in both hosts views (check 1). -/
def findHostDup (ro rw : IPNetHostList) : Option Conflict :=
  ro.hosts.findSome? fun h =>
    if rw.hosts.contains h then some (.hostInBoth h) else none

/-- First pair of overlapping networks (check 2). -/
def findNetOverlap (ro rw : IPNetHostList) : Option Conflict :=
  ro.nets.findSome? fun a =>
    (rw.nets.find? (fun b => netOverlaps a b)).map (fun b => .netOverlap a b)

/-- First read-only host inside a read/write network (check 3a). -/
def findRoHostInRwNet (ro rw : IPNetHostList) : Option Conflict :=
  ro.hosts.findSome? fun h =>
    (rw.nets.find? (fun n => inNet h n)).map (fun n => .roHostInRwNet h n)

/-- First read/write host inside a read-only network (check 3b). -/
def findRwHostInRoNet (ro rw : IPNetHostList) : Option Conflict :=
  rw.hosts.findSome? fun h =>
    (ro.nets.find? (fun n => inNet h n)).map (fun n => .rwHostInRoNet h n)

/-- First symbolic name present in both names views (check 4). -/
def findNameDup (ro rw : IPNetHostList) : Option Conflict :=
  ro.others.findSome? fun s =>
    if rw.others.contains s then some (.nameInBoth s) else none

/-- Embeds `netacl.raise_on_conflict`: runs the five checks in source
order and reports the first conflict found (`some c` models raising
`InvalidAddressSpecification`; `none` models returning normally). -/
def raise_on_conflict (ro rw : IPNetHostList) : Option Conflict :=
  match findHostDup ro rw with
  | some c => some c
  | none =>
    match findNetOverlap ro rw with
    | some c => some c
    | none =>
      match findRoHostInRwNet ro rw with
      | some c => some c
      | none =>
        match findRwHostInRoNet ro rw with
        | some c => some c
        | none => findNameDup ro rw

/-! ## Properties of raise_on_conflict (claim C1) -/

/-- Condition 1: a host address appears by equality in both hosts views. -/
def HostConflict (ro rw : IPNetHostList) : Prop := ∃ h ∈ ro.hosts, h ∈ rw.hosts

/-- Condition 2: a network in one list overlaps a network in the other. -/
def NetConflict (ro rw : IPNetHostList) : Prop :=
  ∃ a ∈ ro.nets, ∃ b ∈ rw.nets, netOverlaps a b = true

/-- Condition 3: a host in one list falls inside a network in the other
list (either direction). -/
def HostNetConflict (ro rw : IPNetHostList) : Prop :=
  (∃ h ∈ ro.hosts, ∃ n ∈ rw.nets, inNet h n = true) ∨
  (∃ h ∈ rw.hosts, ∃ n ∈ ro.nets, inNet h n = true)

/-- Condition 4: a symbolic name appears in both names views. -/
def NameConflict (ro rw : IPNetHostList) : Prop := ∃ s ∈ ro.others, s ∈ rw.others

/-- The reported conflict names data genuinely present in the two lists. -/
def ConflictWitnessed (ro rw : IPNetHostList) : Conflict → Prop
  | .hostInBoth h => h ∈ ro.hosts ∧ h ∈ rw.hosts
  | .netOverlap a b => a ∈ ro.nets ∧ b ∈ rw.nets ∧ netOverlaps a b = true
  | .roHostInRwNet h n => h ∈ ro.hosts ∧ n ∈ rw.nets ∧ inNet h n = true
  | .rwHostInRoNet h n => h ∈ rw.hosts ∧ n ∈ ro.nets ∧ inNet h n = true
  | .nameInBoth s => s ∈ ro.others ∧ s ∈ rw.others

theorem findSome?_none_iff {α β : Type} (f : α → Option β) (l : List α) :
    l.findSome? f = none ↔ ∀ x ∈ l, f x = none := by
  induction l with
  | nil => simp [List.findSome?]
  | cons a l ih =>
    cases hfa : f a with
    | some b => simp [List.findSome?_cons, hfa]
    | none => simp [List.findSome?_cons, hfa, ih]

theorem findSome?_some_mem {α β : Type} {f : α → Option β} {l : List α} {b : β}
    (h : l.findSome? f = some b) : ∃ a ∈ l, f a = some b := by
  induction l with
  | nil => simp [List.findSome?] at h
  | cons x l ih =>
    rw [List.findSome?_cons] at h
    cases hfx : f x with
    | some y =>
      rw [hfx] at h
      simp at h
      exact ⟨x, by simp, by rw [hfx, h]⟩
    | none =>
      rw [hfx] at h
      obtain ⟨a, ha, hfa⟩ := ih h
      exact ⟨a, by simp [ha], hfa⟩

theorem findHostDup_none_iff (ro rw : IPNetHostList) :
    findHostDup ro rw = none ↔ ¬ HostConflict ro rw := by
  unfold findHostDup HostConflict
  rw [findSome?_none_iff]
  constructor
  · rintro h ⟨x, hx, hx2⟩
    have := h x hx
    rw [if_pos (by simpa using hx2)] at this
    simp at this
  · intro h x hx
    rw [if_neg]
    intro hc
    exact h ⟨x, hx, by simpa using hc⟩

theorem findHostDup_witnessed {ro rw : IPNetHostList} {c : Conflict}
    (h : findHostDup ro rw = some c) :
    ∃ x, c = .hostInBoth x ∧ x ∈ ro.hosts ∧ x ∈ rw.hosts := by
  obtain ⟨a, ha, hfa⟩ := findSome?_some_mem h
  by_cases hc : rw.hosts.contains a
  · rw [if_pos hc] at hfa
    exact ⟨a, by simp_all, ha, by simpa using hc⟩
  · rw [if_neg hc] at hfa
    simp at hfa

theorem findNetOverlap_none_iff (ro rw : IPNetHostList) :
    findNetOverlap ro rw = none ↔ ¬ NetConflict ro rw := by
  unfold findNetOverlap NetConflict
  rw [findSome?_none_iff]
  constructor
  · rintro h ⟨a, ha, b, hb, hov⟩
    have := h a ha
    rw [Option.map_eq_none'] at this
    rw [List.find?_eq_none] at this
    exact absurd hov (by simpa using this b hb)
  · intro h a ha
    rw [Option.map_eq_none', List.find?_eq_none]
    intro b hb
    intro hov
    exact h ⟨a, ha, b, hb, by simpa using hov⟩

theorem findNetOverlap_witnessed {ro rw : IPNetHostList} {c : Conflict}
    (h : findNetOverlap ro rw = some c) :
    ∃ a b, c = .netOverlap a b ∧ a ∈ ro.nets ∧ b ∈ rw.nets ∧ netOverlaps a b = true := by
  obtain ⟨a, ha, hfa⟩ := findSome?_some_mem h
  cases hfind : rw.nets.find? (fun b => netOverlaps a b) with
  | none => rw [hfind] at hfa; simp at hfa
  | some b =>
    rw [hfind] at hfa
    simp at hfa
    refine ⟨a, b, hfa.symm, ha, List.mem_of_find?_eq_some hfind, ?_⟩
    have := List.find?_some hfind
    simpa using this

theorem findRoHostInRwNet_none_iff (ro rw : IPNetHostList) :
    findRoHostInRwNet ro rw = none ↔ ¬ (∃ h ∈ ro.hosts, ∃ n ∈ rw.nets, inNet h n = true) := by
  unfold findRoHostInRwNet
  rw [findSome?_none_iff]
  constructor
  · rintro h ⟨x, hx, n, hn, hin⟩
    have := h x hx
    rw [Option.map_eq_none', List.find?_eq_none] at this
    exact absurd hin (by simpa using this n hn)
  · intro h x hx
    rw [Option.map_eq_none', List.find?_eq_none]
    intro n hn hin
    exact h ⟨x, hx, n, hn, by simpa using hin⟩

theorem findRoHostInRwNet_witnessed {ro rw : IPNetHostList} {c : Conflict}
    (h : findRoHostInRwNet ro rw = some c) :
    ∃ x n, c = .roHostInRwNet x n ∧ x ∈ ro.hosts ∧ n ∈ rw.nets ∧ inNet x n = true := by
  obtain ⟨x, hx, hfx⟩ := findSome?_some_mem h
  cases hfind : rw.nets.find? (fun n => inNet x n) with
  | none => rw [hfind] at hfx; simp at hfx
  | some n =>
    rw [hfind] at hfx
    simp at hfx
    refine ⟨x, n, hfx.symm, hx, List.mem_of_find?_eq_some hfind, ?_⟩
    have := List.find?_some hfind
    simpa using this

theorem findRwHostInRoNet_none_iff (ro rw : IPNetHostList) :
    findRwHostInRoNet ro rw = none ↔ ¬ (∃ h ∈ rw.hosts, ∃ n ∈ ro.nets, inNet h n = true) := by
  unfold findRwHostInRoNet
  rw [findSome?_none_iff]
  constructor
  · rintro h ⟨x, hx, n, hn, hin⟩
    have := h x hx
    rw [Option.map_eq_none', List.find?_eq_none] at this
    exact absurd hin (by simpa using this n hn)
  · intro h x hx
    rw [Option.map_eq_none', List.find?_eq_none]
    intro n hn hin
    exact h ⟨x, hx, n, hn, by simpa using hin⟩

theorem findRwHostInRoNet_witnessed {ro rw : IPNetHostList} {c : Conflict}
    (h : findRwHostInRoNet ro rw = some c) :
    ∃ x n, c = .rwHostInRoNet x n ∧ x ∈ rw.hosts ∧ n ∈ ro.nets ∧ inNet x n = true := by
  obtain ⟨x, hx, hfx⟩ := findSome?_some_mem h
  cases hfind : ro.nets.find? (fun n => inNet x n) with
  | none => rw [hfind] at hfx; simp at hfx
  | some n =>
    rw [hfind] at hfx
    simp at hfx
    refine ⟨x, n, hfx.symm, hx, List.mem_of_find?_eq_some hfind, ?_⟩
    have := List.find?_some hfind
    simpa using this

theorem findNameDup_none_iff (ro rw : IPNetHostList) :
    findNameDup ro rw = none ↔ ¬ NameConflict ro rw := by
  unfold findNameDup NameConflict
  rw [findSome?_none_iff]
  constructor
  · rintro h ⟨s, hs, hs2⟩
    have := h s hs
    rw [if_pos (by simpa using hs2)] at this
    simp at this
  · intro h s hs
    rw [if_neg]
    intro hc
    exact h ⟨s, hs, by simpa using hc⟩

theorem findNameDup_witnessed {ro rw : IPNetHostList} {c : Conflict}
    (h : findNameDup ro rw = some c) :
    ∃ s, c = .nameInBoth s ∧ s ∈ ro.others ∧ s ∈ rw.others := by
  obtain ⟨s, hs, hfs⟩ := findSome?_some_mem h
  by_cases hc : rw.others.contains s
  · rw [if_pos hc] at hfs
    exact ⟨s, by simp_all, hs, by simpa using hc⟩
  · rw [if_neg hc] at hfs
    simp at hfs

/-- C1: `raise_on_conflict(ro, rw)` raises `InvalidAddressSpecification`
(modelled as `some c`) if and only if one of the four conflict conditions
holds (duplicate host, overlapping networks, host inside a network of the
other list in either direction, duplicate symbolic name); the reported
conflict names data genuinely present in the lists, the checks run in
source order (a duplicate host is always what is reported when one
exists), and with no conflict the validator returns normally (`none`). -/
theorem raise_on_conflict_spec (ro rw : IPNetHostList) :
    (raise_on_conflict ro rw = none ↔
      ¬ (HostConflict ro rw ∨ NetConflict ro rw ∨ HostNetConflict ro rw ∨
         NameConflict ro rw)) ∧
    (∀ c, raise_on_conflict ro rw = some c → ConflictWitnessed ro rw c) ∧
    (HostConflict ro rw → ∃ h, raise_on_conflict ro rw = some (.hostInBoth h)) := by
  unfold raise_on_conflict
  cases h1 : findHostDup ro rw with
  | some c =>
    obtain ⟨x, hc, hx1, hx2⟩ := findHostDup_witnessed h1
    subst hc
    refine ⟨⟨fun hh => by simp at hh, fun hcontra => absurd (Or.inl ⟨x, hx1, hx2⟩) hcontra⟩, ?_, ?_⟩
    · intro c2 hc2
      have : Conflict.hostInBoth x = c2 := by simpa using hc2
      subst this
      exact ⟨hx1, hx2⟩
    · intro _
      exact ⟨x, rfl⟩
  | none =>
    have hnh : ¬ HostConflict ro rw := (findHostDup_none_iff ro rw).mp h1
    cases h2 : findNetOverlap ro rw with
    | some c =>
      obtain ⟨a, b, hc, ha, hb, hov⟩ := findNetOverlap_witnessed h2
      subst hc
      refine ⟨⟨fun hh => by simp at hh,
        fun hcontra => absurd (Or.inr (Or.inl ⟨a, ha, b, hb, hov⟩)) hcontra⟩, ?_, ?_⟩
      · intro c2 hc2
        have : Conflict.netOverlap a b = c2 := by simpa using hc2
        subst this
        exact ⟨ha, hb, hov⟩
      · intro hh
        exact absurd hh hnh
    | none =>
      have hnn : ¬ NetConflict ro rw := (findNetOverlap_none_iff ro rw).mp h2
      cases h3 : findRoHostInRwNet ro rw with
      | some c =>
        obtain ⟨x, n, hc, hx, hn, hin⟩ := findRoHostInRwNet_witnessed h3
        subst hc
        refine ⟨⟨fun hh => by simp at hh,
          fun hcontra => absurd (Or.inr (Or.inr (Or.inl (Or.inl ⟨x, hx, n, hn, hin⟩)))) hcontra⟩,
          ?_, ?_⟩
        · intro c2 hc2
          have : Conflict.roHostInRwNet x n = c2 := by simpa using hc2
          subst this
          exact ⟨hx, hn, hin⟩
        · intro hh
          exact absurd hh hnh
      | none =>
        have hn3 := (findRoHostInRwNet_none_iff ro rw).mp h3
        cases h4 : findRwHostInRoNet ro rw with
        | some c =>
          obtain ⟨x, n, hc, hx, hn, hin⟩ := findRwHostInRoNet_witnessed h4
          subst hc
          refine ⟨⟨fun hh => by simp at hh,
            fun hcontra => absurd (Or.inr (Or.inr (Or.inl (Or.inr ⟨x, hx, n, hn, hin⟩)))) hcontra⟩,
            ?_, ?_⟩
          · intro c2 hc2
            have : Conflict.rwHostInRoNet x n = c2 := by simpa using hc2
            subst this
            exact ⟨hx, hn, hin⟩
          · intro hh
            exact absurd hh hnh
        | none =>
          have hn4 := (findRwHostInRoNet_none_iff ro rw).mp h4
          cases h5 : findNameDup ro rw with
          | some c =>
            obtain ⟨s, hc, hs1, hs2⟩ := findNameDup_witnessed h5
            subst hc
            refine ⟨⟨fun hh => by simp at hh,
              fun hcontra => absurd (Or.inr (Or.inr (Or.inr ⟨s, hs1, hs2⟩))) hcontra⟩, ?_, ?_⟩
            · intro c2 hc2
              have : Conflict.nameInBoth s = c2 := by simpa using hc2
              subst this
              exact ⟨hs1, hs2⟩
            · intro hh
              exact absurd hh hnh
          | none =>
            have hn5 : ¬ NameConflict ro rw := (findNameDup_none_iff ro rw).mp h5
            refine ⟨⟨fun _ => ?_, fun _ => rfl⟩, ?_, ?_⟩
            · rintro (hh | hh | hh | hh)
              · exact hnh hh
              · exact hnn hh
              · rcases hh with hh | hh
                · exact hn3 hh
                · exact hn4 hh
              · exact hn5 hh
            · intro c2 hc2
              simp at hc2
            · intro hh
              exact absurd hh hnh

/-! ## nfs.py and smb.py: share descriptors

The dataclass fields are embedded at their declared types (booleans as
`Bool`, strings as `List Char`); the `isinstance` checks on boolean fields
therefore always pass.  The Python field named `none` is embedded as
`none_acc`. -/

/-- The `NFSShare` dataclass. -/
structure NFSShare where
  read_only : List Char
  read_write : List Char
  none_acc : List Char
  root : List Char
  hideds : Bool := false
  sec_label : Bool := false
  ub : Bool := true
  sec_mode : List Char := "sys".data

/-- `NFSShare.security_label`: `seclabel` when the flag is set, else `None`. -/
def NFSShare.security_label (s : NFSShare) : Option (List Char) :=
  if s.sec_label then some ("seclabel".data) else none

/-- `NFSShare.security_mode`: the mode must be non-empty and one of the six
legal values, else `ValueError`. -/
def NFSShare.security_mode (s : NFSShare) : Except NetaclError (List Char) :=
  if s.sec_mode = [] then .error .valueError
  else if s.sec_mode ∈ ["sys".data, "dh".data, "none".data, "krb5".data,
      "krb5i".data, "krb5p".data] then .ok s.sec_mode
  else .error .valueError

/-- `NFSShare.hide_descendant_dataset`: `nohide` when `hideds` is false,
else `None`. -/
def NFSShare.hide_descendant_dataset (s : NFSShare) : Option (List Char) :=
  if ¬ s.hideds then some ("nohide".data) else none

/-- `NFSShare.read_only_list`: an `IPNetHostList` when the string is
non-empty (truthy), else Python `None`. -/
def NFSShare.read_only_list (s : NFSShare) : Except NetaclError (Option IPNetHostList) :=
  if s.read_only ≠ [] then (mkIPNetHostList (.str s.read_only)).map some
  else .ok none

/-- `NFSShare.read_write_list`. -/
def NFSShare.read_write_list (s : NFSShare) : Except NetaclError (Option IPNetHostList) :=
  if s.read_write ≠ [] then (mkIPNetHostList (.str s.read_write)).map some
  else .ok none

/-- `NFSShare.none_list`. -/
def NFSShare.none_list (s : NFSShare) : Except NetaclError (Option IPNetHostList) :=
  if s.none_acc ≠ [] then (mkIPNetHostList (.str s.none_acc)).map some
  else .ok none

/-- `NFSShare.root_list`.  Note: the source tests `self.read_write`, not
`self.root`, before building the list from `self.root`. -/
def NFSShare.root_list (s : NFSShare) : Except NetaclError (Option IPNetHostList) :=
  if s.read_write ≠ [] then (mkIPNetHostList (.str s.root)).map some
  else .ok none

/-- Calling `raise_on_conflict` on the results of the list selectors, which
may be Python `None`: accessing `.hosts` on `None` raises
`AttributeError`. -/
def raise_on_conflict_opt :
    Option IPNetHostList → Option IPNetHostList → Except NetaclError Unit
  | some ro, some rw =>
    match raise_on_conflict ro rw with
    | some _ => .error .invalidAddressSpecification
    | none => .ok ()
  | _, _ => .error .attributeError

/-- `NFSShare.validate_access_lists`. -/
def NFSShare.validate_access_lists (s : NFSShare) : Except NetaclError Unit := do
  let ro ← s.read_only_list
  let rw ← s.read_write_list
  raise_on_conflict_opt ro rw

/-- `NFSShare.__str__`: assembles the `sharenfs` property string. -/
def NFSShare.toStr (s : NFSShare) : Except NetaclError (List Char) := do
  let secMode ← s.security_mode
  let ro ← s.read_only_list
  let rw ← s.read_write_list
  let nn ← s.none_list
  let rt ← s.root_list
  let parts :=
    (match s.security_label with | some l => [l] | none => []) ++
    ["anon=nobody".data] ++
    [("sec=".data) ++ secMode] ++
    (match s.hide_descendant_dataset with | some l => [l] | none => []) ++
    (match ro with | some l => [("ro=".data) ++ ipListStr l] | none => []) ++
    (match rw with | some l => [("rw=".data) ++ ipListStr l] | none => []) ++
    (match nn with | some l => [("none=".data) ++ ipListStr l] | none => []) ++
    (match rt with | some l => [("root=".data) ++ ipListStr l] | none => [])
  pure (("sharenfs=".data) ++ joinSep ',' parts ++ (" racktop:ub=".data) ++
        (if s.ub then "on".data else "off".data))

/-- The `SMBShare` dataclass. -/
structure SMBShare where
  name : List Char
  abe : Bool
  csc : List Char
  encrypt : List Char
  read_only : List Char
  read_write : List Char
  none_acc : List Char
  ub : Bool

/-- `SMBShare.csc_setting`: legal values else `ValueError`. -/
def SMBShare.csc_setting (s : SMBShare) : Except NetaclError (List Char) :=
  if s.csc ∈ ["manual".data, "auto".data, "vdo".data, "disabled".data] then .ok s.csc
  else .error .valueError

/-- `SMBShare.encrypt_setting`: legal values else `ValueError`. -/
def SMBShare.encrypt_setting (s : SMBShare) : Except NetaclError (List Char) :=
  if s.encrypt ∈ ["enabled".data, "disabled".data, "required".data] then .ok s.encrypt
  else .error .valueError

/-- `SMBShare.read_only_list`. -/
def SMBShare.read_only_list (s : SMBShare) : Except NetaclError (Option IPNetHostList) :=
  if s.read_only ≠ [] then (mkIPNetHostList (.str s.read_only)).map some
  else .ok none

/-- `SMBShare.read_write_list`. -/
def SMBShare.read_write_list (s : SMBShare) : Except NetaclError (Option IPNetHostList) :=
  if s.read_write ≠ [] then (mkIPNetHostList (.str s.read_write)).map some
  else .ok none

/-- `SMBShare.none_list`. -/
def SMBShare.none_list (s : SMBShare) : Except NetaclError (Option IPNetHostList) :=
  if s.none_acc ≠ [] then (mkIPNetHostList (.str s.none_acc)).map some
  else .ok none

/-- `SMBShare.validate_access_lists`. -/
def SMBShare.validate_access_lists (s : SMBShare) : Except NetaclError Unit := do
  let ro ← s.read_only_list
  let rw ← s.read_write_list
  raise_on_conflict_opt ro rw

/-- `SMBShare.__str__`: assembles the `sharesmb` property string. -/
def SMBShare.toStr (s : SMBShare) : Except NetaclError (List Char) := do
  let cscSetting ← s.csc_setting
  let encryptSetting ← s.encrypt_setting
  let ro ← s.read_only_list
  let rw ← s.read_write_list
  let nn ← s.none_list
  let parts :=
    [("name=".data) ++ s.name] ++
    [("abe=".data) ++ (if s.abe then "true".data else "false".data)] ++
    [("csc=".data) ++ cscSetting] ++
    [("encrypt=".data) ++ encryptSetting] ++
    (match ro with | some l => [("ro=".data) ++ ipListStr l] | none => []) ++
    (match rw with | some l => [("rw=".data) ++ ipListStr l] | none => []) ++
    (match nn with | some l => [("none=".data) ++ ipListStr l] | none => [])
  pure (("sharesmb=".data) ++ joinSep ',' parts ++ (" racktop:ub=".data) ++
        (if s.ub then "on".data else "off".data))

/-! ## api_datasets.py: the Dataset property model -/

/-- A Python property value in this codebase: `None`, an `int`, or a `str`. -/
inductive PValue where
  | none
  | int (n : Int)
  | str (s : String)
deriving DecidableEq, Repr

/-- Property mappings are embedded as insertion-ordered association lists,
matching Python dict semantics (unique keys, insertion order preserved). -/
abbrev Props := List (String × PValue)

/-- Dict lookup. -/
def lookupKV {β : Type} (props : List (String × β)) (k : String) : Option β :=
  (props.find? (fun kv => kv.1 == k)).map (fun kv => kv.2)

/-- Dict assignment `d[k] = v`: replaces the entry in place, or appends a
new entry when the key is absent. -/
def setKV {β : Type} : List (String × β) → String → β → List (String × β)
  | [], k, v => [(k, v)]
  | kv :: rest, k, v => if kv.1 = k then (k, v) :: rest else kv :: setKV rest k v

/-- Dict update `base.update(upd)`: every pair of `upd` assigned in order. -/
def updateKV {β : Type} (base upd : List (String × β)) : List (String × β) :=
  upd.foldl (fun acc kv => setKV acc kv.1 kv.2) base

/-- `KNOWN_PROPS` from `api.py`. -/
def KNOWN_PROPS : List String :=
  ["aclinherit", "aclmode", "atime", "canmount", "checksum", "compression",
   "copies", "devices", "exec", "filesystem_limit", "logbias", "nbmand",
   "casesensitivity", "normalization", "utf8only", "primarycache", "quota",
   "readonly", "recordsize", "redundant_metadata", "refquota",
   "refreservation", "reservation", "secondarycache", "setuid", "snapdir",
   "snapshot_limit", "sync", "vscan", "xattr", "zoned",
   "racktop:storage_profile", "racktop:encoded_description", "smartfolders",
   "racktop:ub", "racktop:ub_suspend", "racktop:ub_thresholds",
   "racktop:ub_trial", "racktop:version", "sharenfs", "sharesmb"]

/-- `Dataset.DEFAULT_DATASET_PROPS` from `api_datasets.py`. -/
def DEFAULT_DATASET_PROPS : Props :=
  [("aclinherit", .str "passthrough"), ("aclmode", .str "passthrough"),
   ("atime", .str "on"), ("canmount", .str "on"),
   ("checksum", .str "fletcher4"), ("compression", .str "lz4"),
   ("copies", .int 1), ("devices", .str "on"), ("exec", .str "on"),
   ("filesystem_limit", .none), ("logbias", .str "latency"),
   ("nbmand", .str "on"), ("casesensitivity", .str "mixed"),
   ("normalization", .none), ("utf8only", .str "off"),
   ("primarycache", .str "all"), ("quota", .none), ("readonly", .str "off"),
   ("recordsize", .int 131072), ("redundant_metadata", .str "all"),
   ("refquota", .none), ("refreservation", .none), ("reservation", .none),
   ("secondarycache", .str "all"), ("setuid", .str "on"),
   ("snapdir", .str "hidden"), ("snapshot_limit", .none),
   ("sync", .str "standard"), ("vscan", .str "off"), ("xattr", .str "on"),
   ("zoned", .str "off"), ("racktop:storage_profile", .str "general_filesystem"),
   ("racktop:encoded_description", .str ""), ("smartfolders", .str "off"),
   ("racktop:ub", .str "on"), ("racktop:ub_suspend", .str ""),
   ("racktop:ub_thresholds", .str "null"), ("racktop:ub_trial", .str ""),
   ("racktop:version", .int 1), ("sharenfs", .str "off"),
   ("sharesmb", .str "off")]

/-- Error outcomes of the Dataset code: Python `KeyError` and
`ValueError`. -/
inductive DsError where
  | keyError (k : String)
  | valueError
deriving DecidableEq, Repr

/-- Python `type(a) == type(b)` on the tri-state values. -/
def sameType : PValue → PValue → Bool
  | .none, .none => true
  | .int _, .int _ => true
  | .str _, .str _ => true
  | _, _ => false

/-- Python `isinstance(v, int)` on the tri-state values. -/
def isIntValue : PValue → Bool
  | .int _ => true
  | _ => false

/-- One iteration of the `Dataset.merge` loop: unknown keys raise
`KeyError`; a `None` override of an `int`-typed current value is assigned
via the special case; everything else is assigned directly. -/
def mergeOne (props : Props) (k : String) (v : PValue) : Except DsError Props :=
  if ¬ KNOWN_PROPS.contains k then .error (.keyError k)
  else
    match lookupKV props k with
    | Option.none => .error (.keyError k)
    | Option.some old =>
      if ¬ sameType v old then
        if isIntValue old then
          if v = .none then .ok (setKV props k .none)
          else .ok (setKV props k v)
        else .ok (setKV props k v)
      else .ok (setKV props k v)

/-- Embeds `Dataset.merge`. -/
def Dataset.merge (props : Props) (changes : Props) : Except DsError Props :=
  changes.foldlM (fun acc kv => mergeOne acc kv.1 kv.2) props

/-- The selection loop of `Dataset.diff`: `partial[k] = self.props[k]` for
each observed key, raising `KeyError` at the first key unknown to the
model. -/
def diffSelect (props : Props) : Props → Except DsError Props
  | [] => .ok []
  | kv :: rest =>
    match lookupKV props kv.1 with
    | Option.some v => (diffSelect props rest).map (fun sel => (kv.1, v) :: sel)
    | Option.none => .error (DsError.keyError kv.1)

/-- Embeds `Dataset.diff`: select the model values at the observed keys,
then return the pairs of the observed mapping not among the selected pairs
(`dict(set(other.items()) - set(partial.items()))`). -/
def Dataset.diff (props : Props) (other : Props) : Except DsError Props :=
  (diffSelect props other).map (fun selected =>
    other.filter (fun kv => ¬ selected.contains kv))

/-- Embeds `Dataset._seed_with_default_props`: seed from the defaults, or
update an existing mapping with them (the defaults overwrite). -/
def seed_with_default_props (props : Option Props) : Props :=
  match props with
  | Option.none => DEFAULT_DATASET_PROPS
  | Option.some p => updateKV p DEFAULT_DATASET_PROPS

/-- Embeds `Dataset._dataset_props`: `None` serializes as the token
`none`, ints as their decimal string, strings pass through. -/
def dataset_props (props : Props) : List (String × String) :=
  props.map (fun kv =>
    (kv.1, match kv.2 with
           | .none => "none"
           | .int n => toString n
           | .str s => s))

/-- Python `str.isnumeric` restricted to ASCII digit strings. -/
def isNumericStr (s : List Char) : Bool := !s.isEmpty && s.all Char.isDigit

/-- Embeds `AnsibleBsrApiClient._parse_dataset_details`: one
tab-separated line per property (`ValueError` when a line does not have
exactly four fields), unknown names skipped, `none` parses to `None`,
numeric values of the quota family parse to `None` when `0` and stay
strings otherwise, other numeric values parse to ints, everything else
stays a string. -/
def parse_dataset_details (s : List Char) : Except DsError Props :=
  (splitSep '\n' s).foldlM (fun props line =>
    match splitSep '\t' line with
    | [_, prop, value, _] =>
      let propStr := String.mk prop
      if ¬ KNOWN_PROPS.contains propStr then .ok props
      else if value = "none".data then .ok (setKV props propStr .none)
      else if isNumericStr value then
        if propStr ∈ (["quota", "refquota", "reservation", "refreservation"] : List String) then
          if value = "0".data then .ok (setKV props propStr .none)
          else .ok (setKV props propStr (.str (String.mk value)))
        else .ok (setKV props propStr (.int (Int.ofNat (digitsToNat value))))
      else .ok (setKV props propStr (.str (String.mk value)))
    | _ => .error .valueError) []

/-! ## The remote boundary for ensure-present (claim C3)

Modelled from the spec: the transport/API layer of section 6
(`getProperties`, `setProperties`, `createDataset`) is not part of the
repository, so it is modelled as a store holding the observed property
pairs of one dataset: `getProperties` returns them, `setProperties`
overwrites them pairwise, `createDataset` fails with `Exists` when the
dataset exists and otherwise records the sent set. -/
structure MockApi where
  dsExists : Bool
  obs : List (String × String)
deriving DecidableEq, Repr

/-- Outcome classification in `DatasetTaskResult.details["outcome"]`. -/
inductive CreateOutcome where
  | created
  | modified
  | unchanged
  | failed
deriving DecidableEq, Repr

/-- The fields of `DatasetTaskResult` relevant to the claims. -/
structure DatasetTaskResult where
  succeeded : Bool
  changed : Bool
  outcome : CreateOutcome
  updates : List (String × String)
deriving DecidableEq, Repr

/-- A complete run of `create_dataset`: the returned result, the final
store, and the payloads passed to `set_dataset_properties`. -/
structure CreateRun where
  result : DatasetTaskResult
  api : MockApi
  sent : List (List (String × String))
deriving DecidableEq, Repr

/-- `dict(set(after.items()) - set(before.items()))` on wire pairs. -/
def pairsDiff (after before : List (String × String)) : List (String × String) :=
  after.filter (fun kv => ¬ before.contains kv)

/-- Embeds `Dataset.create_dataset` run against the modelled boundary.
`initProps` is the `Dataset()` constructor argument, `props` the supplied
keyword properties.  The `.error` case models the uncaught `ValueError`
raised by `set_dataset_properties` on an empty payload. -/
def create_dataset (initProps : Option Props) (props : Props) (api : MockApi) :
    Except DsError CreateRun :=
  let seeded := seed_with_default_props initProps
  match (if props ≠ [] then Dataset.merge seeded props else .ok seeded) with
  | .error _ => .ok ⟨⟨false, false, .failed, []⟩, api, []⟩
  | .ok merged =>
    if api.dsExists then
      let propsBefore := api.obs
      let payload := dataset_props props
      if payload = [] then .error .valueError
      else
        let obs2 := updateKV api.obs payload
        let diff := pairsDiff obs2 propsBefore
        if diff ≠ [] then
          .ok ⟨⟨true, true, .modified, diff⟩, ⟨true, obs2⟩, [payload]⟩
        else
          .ok ⟨⟨true, false, .unchanged, []⟩, ⟨true, obs2⟩, [payload]⟩
    else
      .ok ⟨⟨true, true, .created, []⟩, ⟨true, dataset_props merged⟩, []⟩

/-! ## api.py: destroy_dataset (claim C9) -/

/-- Whether `pat` is an initial segment of `s`. -/
def startsWithChars : List Char → List Char → Bool
  | [], _ => true
  | _ :: _, [] => false
  | a :: as, b :: bs => a == b && startsWithChars as bs

/-- Whether dataset path `d` lies strictly below dataset path `p`. -/
def isUnder (p d : List Char) : Bool := startsWithChars (p ++ ['/']) d

theorem startsWithChars_length {pat s : List Char}
    (h : startsWithChars pat s = true) : pat.length ≤ s.length := by
  induction pat generalizing s with
  | nil => simp
  | cons a as ih =>
    cases s with
    | nil => simp [startsWithChars] at h
    | cons b bs =>
      simp only [startsWithChars, Bool.and_eq_true] at h
      have := ih h.2
      simp
      omega

theorem startsWithChars_weaken {a b s : List Char}
    (h : startsWithChars (a ++ b) s = true) : startsWithChars a s = true := by
  induction a generalizing s with
  | nil => rfl
  | cons x xs ih =>
    cases s with
    | nil => simp [startsWithChars] at h
    | cons y ys =>
      simp only [List.cons_append, startsWithChars, Bool.and_eq_true] at h ⊢
      exact ⟨h.1, ih h.2⟩

theorem startsWithChars_trans {a b c : List Char}
    (h1 : startsWithChars a b = true) (h2 : startsWithChars b c = true) :
    startsWithChars a c = true := by
  induction a generalizing b c with
  | nil => rfl
  | cons x xs ih =>
    cases b with
    | nil => simp [startsWithChars] at h1
    | cons y ys =>
      cases c with
      | nil => simp [startsWithChars] at h2
      | cons z zs =>
        simp only [startsWithChars, Bool.and_eq_true, beq_iff_eq] at h1 h2 ⊢
        exact ⟨h1.1.trans h2.1, ih h1.2 h2.2⟩

theorem isUnder_trans {p c d : List Char} (h1 : isUnder p c = true)
    (h2 : isUnder c d = true) : isUnder p d = true := by
  unfold isUnder at h1 h2 ⊢
  have hcd : startsWithChars c d = true := startsWithChars_weaken h2
  exact startsWithChars_trans h1 hcd

theorem isUnder_irrefl (c : List Char) : isUnder c c = false := by
  cases hv : isUnder c c
  · rfl
  · have := startsWithChars_length hv
    simp at this

theorem lexLt_of_isUnder {c d : List Char} (h : isUnder c d = true) :
    lexLt c d = true := by
  unfold isUnder at h
  suffices hgen : ∀ (c d : List Char) (x : Char),
      startsWithChars (c ++ [x]) d = true → lexLt c d = true by
    exact hgen c d '/' h
  intro c
  induction c with
  | nil =>
    intro d x h
    cases d with
    | nil => simp [startsWithChars] at h
    | cons y ys => rfl
  | cons a as ih =>
    intro d x h
    cases d with
    | nil => simp [startsWithChars] at h
    | cons b bs =>
      simp only [List.cons_append, startsWithChars, Bool.and_eq_true, beq_iff_eq] at h
      obtain ⟨hab, h2⟩ := h
      subst hab
      simp only [lexLt, if_neg (lt_irrefl a)]
      exact ih bs x h2

/-- The set of datasets present on the modelled appliance. -/
structure DestroyState where
  datasets : List (List Char)
deriving DecidableEq, Repr

/-- Paths strictly below `p` present in the store. -/
def strictDescendants (st : DestroyState) (p : List Char) : List (List Char) :=
  st.datasets.filter (fun d => isUnder p d)

/-- Modelled from the spec: the `destroyDataset(path)` boundary call of
section 6 — the endpoint destroys the dataset (succeeding also when it is
absent) when it has no descendants, and otherwise destroys nothing and
reports the descendant paths. -/
def destroyPost (st : DestroyState) (p : List Char) :
    (List (List Char)) × DestroyState :=
  if strictDescendants st p = [] then ([], ⟨st.datasets.filter (fun d => d ≠ p)⟩)
  else (strictDescendants st p, st)

/-- Failure outcomes of the destroy client: the
`RequiresRecursiveDestroy` query error carrying the descendant list, and
exhaustion of the recursion-depth fuel. -/
inductive DestroyErr where
  | requiresRecursiveDestroy (descendants : List (List Char))
  | fuelExhausted
deriving DecidableEq, Repr

/-- Ordered insertion with respect to `lexLe`. -/
def insertAsc (x : List Char) : List (List Char) → List (List Char)
  | [] => [x]
  | y :: ys => if lexLe x y then x :: y :: ys else y :: insertAsc x ys

/-- Python `sorted` on path strings: ascending lexicographic sort. -/
def sortAsc (l : List (List Char)) : List (List Char) := l.foldr insertAsc []

/-- Embeds `AnsibleBsrApiClient.destroy_dataset`: one destroy call, and on
`Descendants` with recursion enabled, recursive destruction of the children
in `reversed(sorted(children))` order followed by the parent.  The returned
list logs the paths destroyed, in order; the fuel models Python's bounded
recursion depth. -/
def destroy_dataset : Nat → DestroyState → List Char → Bool →
    Except DestroyErr (DestroyState × List (List Char))
  | 0, _, _, _ => .error .fuelExhausted
  | Nat.succ fuel, st, p, recursive =>
    let post := destroyPost st p
    if post.1 = [] then .ok (post.2, [p])
    else if ¬ recursive then .error (.requiresRecursiveDestroy post.1)
    else do
      let sortedChildren := (sortAsc post.1).reverse
      let stLogs ← sortedChildren.foldlM
        (fun acc c => do
          let r ← destroy_dataset fuel acc.1 c true
          pure (r.1, acc.2 ++ r.2))
        (post.2, ([] : List (List Char)))
      let r2 ← destroy_dataset fuel stLogs.1 p false
      pure (r2.1, stLogs.2 ++ r2.2)

theorem lexLe_refl (a : List Char) : lexLe a a = true := by
  simp [lexLe]

theorem lexLe_trans {a b c : List Char} (h1 : lexLe a b = true)
    (h2 : lexLe b c = true) : lexLe a c = true := by
  simp only [lexLe, Bool.or_eq_true, beq_iff_eq] at h1 h2 ⊢
  rcases h1 with h1 | h1
  · rcases h2 with h2 | h2
    · exact Or.inl (lexLt_trans h1 h2)
    · subst h2; exact Or.inl h1
  · subst h1
    exact h2

theorem lexLe_total_cases (a b : List Char) :
    lexLe a b = true ∨ lexLe b a = true := by
  by_cases h1 : lexLt a b = true
  · exact Or.inl (by simp [lexLe, h1])
  · by_cases h2 : lexLt b a = true
    · exact Or.inr (by simp [lexLe, h2])
    · have hab : a = b := lexLt_total (by simpa using h1) (by simpa using h2)
      subst hab
      exact Or.inl (lexLe_refl a)

theorem lexLt_of_lexLe_ne {a b : List Char} (h : lexLe a b = true)
    (hne : a ≠ b) : lexLt a b = true := by
  simp only [lexLe, Bool.or_eq_true, beq_iff_eq] at h
  rcases h with h | h
  · exact h
  · exact absurd h hne

theorem mem_insertAsc {a x : List Char} {l : List (List Char)} :
    a ∈ insertAsc x l ↔ a = x ∨ a ∈ l := by
  induction l with
  | nil => simp [insertAsc]
  | cons y ys ih =>
    simp only [insertAsc]
    split
    · simp
    · simp [ih]
      tauto

theorem insertAsc_perm (x : List Char) (l : List (List Char)) :
    (insertAsc x l).Perm (x :: l) := by
  induction l with
  | nil => simp [insertAsc]
  | cons y ys ih =>
    simp only [insertAsc]
    split
    · exact List.Perm.refl _
    · exact (List.Perm.cons y ih).trans (List.Perm.swap x y ys)

theorem sortAsc_perm (l : List (List Char)) : (sortAsc l).Perm l := by
  induction l with
  | nil => simp [sortAsc]
  | cons a l ih =>
    have h1 : sortAsc (a :: l) = insertAsc a (sortAsc l) := rfl
    rw [h1]
    exact (insertAsc_perm a (sortAsc l)).trans (List.Perm.cons a ih)

theorem mem_sortAsc {a : List Char} {l : List (List Char)} :
    a ∈ sortAsc l ↔ a ∈ l := (sortAsc_perm l).mem_iff

theorem pairwise_insertAsc {x : List Char} {l : List (List Char)}
    (h : l.Pairwise (fun a b => lexLe a b = true)) :
    (insertAsc x l).Pairwise (fun a b => lexLe a b = true) := by
  induction l with
  | nil => simp [insertAsc]
  | cons y ys ih =>
    rw [List.pairwise_cons] at h
    simp only [insertAsc]
    split
    · rename_i hxy
      rw [List.pairwise_cons]
      constructor
      · intro z hz
        rcases List.mem_cons.mp hz with hz | hz
        · subst hz; exact hxy
        · exact lexLe_trans hxy (h.1 z hz)
      · rw [List.pairwise_cons]
        exact h
    · rename_i hxy
      have hyx : lexLe y x = true := by
        rcases lexLe_total_cases x y with hc | hc
        · exact absurd hc hxy
        · exact hc
      rw [List.pairwise_cons]
      constructor
      · intro z hz
        rcases mem_insertAsc.mp hz with hz | hz
        · subst hz; exact hyx
        · exact h.1 z hz
      · exact ih h.2

theorem pairwise_sortAsc (l : List (List Char)) :
    (sortAsc l).Pairwise (fun a b => lexLe a b = true) := by
  induction l with
  | nil => simp [sortAsc]
  | cons a l ih => exact pairwise_insertAsc ih

theorem nodup_sortAsc {l : List (List Char)} (h : l.Nodup) :
    (sortAsc l).Nodup := ((sortAsc_perm l).nodup_iff).mpr h

theorem pairwise_strict_sortAsc {l : List (List Char)} (h : l.Nodup) :
    (sortAsc l).Pairwise (fun a b => lexLt a b = true) := by
  have h1 := pairwise_sortAsc l
  have h2 := nodup_sortAsc h
  have h3 := h1.and h2
  exact h3.imp (fun hab => lexLt_of_lexLe_ne hab.1 hab.2)

theorem pairwise_strict_reverse_sortAsc {l : List (List Char)} (h : l.Nodup) :
    ((sortAsc l).reverse).Pairwise (fun a b => lexLt b a = true) := by
  rw [List.pairwise_reverse]
  exact pairwise_strict_sortAsc h


theorem except_pure_eq {α : Type} (a : α) :
    (pure a : Except DestroyErr α) = Except.ok a := rfl

theorem destroyExcept_bind_ok {α β : Type} (a : α) (k : α → Except DestroyErr β) :
    ((Except.ok a : Except DestroyErr α) >>= k) = k a := rfl

theorem destroy_loop (fuel : Nat) (cs : List (List Char)) :
    ∀ (st : DestroyState) (log0 : List (List Char)),
    cs.Pairwise (fun a b => lexLt b a = true) →
    (∀ c ∈ cs, c ∈ st.datasets) →
    (∀ c ∈ cs, ∀ d ∈ st.datasets, isUnder c d = true → d ∈ cs) →
    cs.foldlM (fun acc c => do
        let r ← destroy_dataset (fuel + 1) acc.1 c true
        pure (r.1, acc.2 ++ r.2)) (st, log0) =
      Except.ok (⟨st.datasets.filter (fun d => d ∉ cs)⟩, log0 ++ cs) := by
  induction cs with
  | nil =>
    intro st log0 _ _ _
    have hfil : st.datasets.filter (fun d => decide (d ∉ ([] : List (List Char)))) =
        st.datasets := by
      apply List.filter_eq_self.mpr
      intro d _
      simp
    simp only [List.foldlM, hfil, List.append_nil]
    rfl
  | cons c cs2 ih =>
    intro st log0 hsorted hmem hclosed
    rw [List.pairwise_cons] at hsorted
    have hdesc : strictDescendants st c = [] := by
      unfold strictDescendants
      rw [List.filter_eq_nil_iff]
      intro d hd
      simp only [Bool.not_eq_true]
      cases hu : isUnder c d with
      | false => rfl
      | true =>
        exfalso
        have hdcs : d ∈ c :: cs2 := hclosed c (by simp) d hd hu
        rcases List.mem_cons.mp hdcs with hdc | hdc
        · subst hdc
          rw [isUnder_irrefl] at hu
          exact absurd hu (by simp)
        · have h1 : lexLt d c = true := hsorted.1 d hdc
          have h2 : lexLt c d = true := lexLt_of_isUnder hu
          have h3 := lexLt_trans h1 h2
          rw [lexLt_irrefl] at h3
          exact absurd h3 (by simp)
    have hstep : destroy_dataset (fuel + 1) st c true =
        .ok (⟨st.datasets.filter (fun d => d ≠ c)⟩, [c]) := by
      show destroy_dataset (Nat.succ fuel) st c true = _
      unfold destroy_dataset
      simp [destroyPost, hdesc]
    rw [List.foldlM_cons]
    simp only [hstep]
    rw [show ((Except.ok ((⟨st.datasets.filter (fun d => d ≠ c)⟩ : DestroyState), [c]) :
        Except DestroyErr (DestroyState × List (List Char))) >>=
        (fun r => pure ((r.1 : DestroyState), log0 ++ r.2))) =
        (pure ((⟨st.datasets.filter (fun d => d ≠ c)⟩ : DestroyState), log0 ++ [c]) :
          Except DestroyErr (DestroyState × List (List Char))) from rfl]
    rw [except_pure_eq]
    rw [show ((Except.ok ((⟨st.datasets.filter (fun d => d ≠ c)⟩ : DestroyState),
        log0 ++ [c]) : Except DestroyErr (DestroyState × List (List Char))) >>=
        (fun b2 => cs2.foldlM (fun acc c => do
          let r ← destroy_dataset (fuel + 1) acc.1 c true
          pure (r.1, acc.2 ++ r.2)) b2)) =
        cs2.foldlM (fun acc c => do
          let r ← destroy_dataset (fuel + 1) acc.1 c true
          pure (r.1, acc.2 ++ r.2))
          ((⟨st.datasets.filter (fun d => d ≠ c)⟩ : DestroyState), log0 ++ [c]) from rfl]
    have hmem2 : ∀ c2 ∈ cs2, c2 ∈ (st.datasets.filter (fun d => d ≠ c)) := by
      intro c2 hc2
      rw [List.mem_filter]
      refine ⟨hmem c2 (by simp [hc2]), ?_⟩
      have hlt := hsorted.1 c2 hc2
      simp only [decide_eq_true_eq]
      intro hce
      subst hce
      rw [lexLt_irrefl] at hlt
      exact absurd hlt (by simp)
    have hclosed2 : ∀ c2 ∈ cs2, ∀ d ∈ (st.datasets.filter (fun d => d ≠ c)),
        isUnder c2 d = true → d ∈ cs2 := by
      intro c2 hc2 d hd hu
      rw [List.mem_filter] at hd
      have hdcs := hclosed c2 (by simp [hc2]) d hd.1 hu
      rcases List.mem_cons.mp hdcs with hdc | hdc
      · exfalso
        subst hdc
        simp at hd
      · exact hdc
    rw [ih ⟨st.datasets.filter (fun d => d ≠ c)⟩ (log0 ++ [c]) hsorted.2 hmem2 hclosed2]
    have hfil : (List.filter (fun d => decide (d ∉ cs2))
        (List.filter (fun d => decide (d ≠ c)) st.datasets)) =
        st.datasets.filter (fun d => decide (d ∉ c :: cs2)) := by
      rw [List.filter_filter]
      apply List.filter_congr
      intro d _
      by_cases hdc : d = c
      · subst hdc
        simp
      · by_cases hdcs : d ∈ cs2
        · simp [hdc, hdcs]
        · simp [hdc, hdcs]
    rw [hfil]
    simp

/-- C9: when destroy is requested with recursion on a dataset whose destroy
attempt reports descendants, the client destroys exactly the descendants in
strict reverse lexicographic path order before issuing the parent destroy:
the destruction log is `reversed(sorted(descendants))` followed by the
parent, the descendant part is strictly decreasing lexicographically, and
every descendant is in it. -/
theorem destroy_dataset_recursive_spec (fuel : Nat) (st : DestroyState) (p : List Char)
    (hnodup : st.datasets.Nodup)
    (hne : strictDescendants st p ≠ []) :
    ∃ final : DestroyState,
      destroy_dataset (fuel + 2) st p true =
        .ok (final, (sortAsc (strictDescendants st p)).reverse ++ [p]) ∧
      ((sortAsc (strictDescendants st p)).reverse).Pairwise
        (fun a b => lexLt b a = true) ∧
      ∀ d ∈ strictDescendants st p, d ∈ (sortAsc (strictDescendants st p)).reverse := by
  have hnodupD : (strictDescendants st p).Nodup := hnodup.filter _
  have hrev_sorted := pairwise_strict_reverse_sortAsc hnodupD
  have hmem_iff : ∀ d, d ∈ (sortAsc (strictDescendants st p)).reverse ↔
      d ∈ strictDescendants st p := by
    intro d
    rw [List.mem_reverse, mem_sortAsc]
  have hmemD : ∀ d ∈ strictDescendants st p,
      d ∈ st.datasets ∧ isUnder p d = true := by
    intro d hd
    unfold strictDescendants at hd
    rw [List.mem_filter] at hd
    exact ⟨hd.1, by simpa using hd.2⟩
  have hpost : destroyPost st p = (strictDescendants st p, st) := by
    unfold destroyPost
    rw [if_neg hne]
  have hloop := destroy_loop fuel ((sortAsc (strictDescendants st p)).reverse) st []
    hrev_sorted
    (fun c hc => (hmemD c ((hmem_iff c).mp hc)).1)
    (by
      intro c hc d hd hu
      rw [hmem_iff]
      unfold strictDescendants
      rw [List.mem_filter]
      have hpc := (hmemD c ((hmem_iff c).mp hc)).2
      refine ⟨hd, by simpa using isUnder_trans hpc hu⟩)
  have hdesc2 : strictDescendants
      (⟨st.datasets.filter (fun d => d ∉ (sortAsc (strictDescendants st p)).reverse)⟩ :
        DestroyState) p = [] := by
    unfold strictDescendants
    rw [List.filter_eq_nil_iff]
    intro d hd
    simp only [Bool.not_eq_true]
    cases hu : isUnder p d with
    | false => rfl
    | true =>
      exfalso
      rw [List.mem_filter] at hd
      have hdD : d ∈ strictDescendants st p := by
        unfold strictDescendants
        rw [List.mem_filter]
        exact ⟨hd.1, by simpa using hu⟩
      have hd2 := hd.2
      rw [decide_eq_true_eq] at hd2
      exact hd2 ((hmem_iff d).mpr hdD)
  have hparent : destroy_dataset (fuel + 1)
      (⟨st.datasets.filter (fun d => d ∉ (sortAsc (strictDescendants st p)).reverse)⟩ :
        DestroyState) p false =
      .ok (⟨(st.datasets.filter
          (fun d => d ∉ (sortAsc (strictDescendants st p)).reverse)).filter
          (fun d => d ≠ p)⟩, [p]) := by
    have hpost2 : destroyPost
        (⟨st.datasets.filter (fun d => d ∉ (sortAsc (strictDescendants st p)).reverse)⟩ :
          DestroyState) p =
        ([], ⟨(st.datasets.filter
          (fun d => d ∉ (sortAsc (strictDescendants st p)).reverse)).filter
          (fun d => d ≠ p)⟩) := by
      unfold destroyPost
      rw [if_pos hdesc2]
    show destroy_dataset (Nat.succ fuel) _ p false = _
    unfold destroy_dataset
    rw [hpost2]
    rfl
  refine ⟨⟨(st.datasets.filter
      (fun d => d ∉ (sortAsc (strictDescendants st p)).reverse)).filter
      (fun d => d ≠ p)⟩, ?_, hrev_sorted, fun d hd => (hmem_iff d).mpr hd⟩
  show destroy_dataset (Nat.succ (fuel + 1)) st p true = _
  unfold destroy_dataset
  rw [hpost]
  simp only [if_neg hne, Bool.not_true, if_neg (by simp : ¬ (false = true))]
  rw [hloop]
  show (Except.ok _ >>= _) = _
  rw [destroyExcept_bind_ok]
  simp only []
  rw [hparent]
  show (Except.ok _ >>= _) = _
  rw [destroyExcept_bind_ok]
  simp only [except_pure_eq, List.nil_append]

/-! ## Claim theorems on concrete inputs -/

/-- C10: constructing an `IPNetHostList` with an argument that is neither a
string nor a list (including the default `None`) raises `TypeError`; no
empty list is silently produced. -/
theorem init_type_error :
    mkIPNetHostList AddrsInput.invalidType = .error .typeError := rfl

/-- C8 (code bug): the token `1foo` contains no slash, does not match the
dotted-quad pattern and does not start with `@`, so `_list_from_addrs_string`
accepts it verbatim as a symbolic name; but `_split_nets_and_hosts` then
treats it as a host address (its first character is not a letter) and
`IPv4Address("1foo")` raises an uncaught `AddressValueError`, so
construction crashes instead of succeeding with the token in the names
view. -/
theorem name_token_uncaught_crash :
    list_from_addrs_string ("1foo".data) = .ok [("1foo".data)] ∧
    mkIPNetHostList (.str ("1foo".data)) = .error .addressValueError :=
  ⟨rfl, rfl⟩

/-- C4 (code bug): on a share whose read-only and read-write lists are both
empty, `read_only_list`/`read_write_list` return `None`, and
`raise_on_conflict` then crashes with `AttributeError` on `None.hosts` —
for both the NFS and the SMB descriptor — instead of succeeding. -/
theorem validate_access_lists_empty_crash :
    (NFSShare.mk [] [] [] [] false false true ("sys".data)).validate_access_lists
      = .error .attributeError ∧
    (SMBShare.mk ("test".data) true ("manual".data) ("enabled".data) [] [] [] true).validate_access_lists
      = .error .attributeError :=
  ⟨rfl, rfl⟩

/-- C5 (code bug): with `read_write` non-empty and `root` empty,
`NFSShare.__str__` emits a bare `root=` clause with empty content, because
`root_list` tests `self.read_write` instead of `self.root`. -/
theorem nfs_str_bare_root_clause :
    (NFSShare.mk [] ("1.2.3.4".data) [] [] false false true ("sys".data)).toStr =
      .ok ("sharenfs=anon=nobody,sec=sys,nohide,rw=@1.2.3.4,root= racktop:ub=on".data) :=
  rfl

/-- C6 counterexample: merging the overlay `{"quota": "0"}` onto the
default-seeded model leaves the literal string `"0"` in the model — not the
absent/`None` value the claim requires. -/
theorem merge_quota_zero_counterexample :
    (Dataset.merge DEFAULT_DATASET_PROPS [("quota", PValue.str "0")]).map
      (fun r => lookupKV r "quota") = .ok (some (PValue.str "0")) ∧
    PValue.str "0" ≠ PValue.none :=
  ⟨rfl, by decide⟩

/-- C6 amended: merging `{"quota": "0"}` onto the default-seeded model
yields the literal string `"0"`; the appliance's zero-means-unset
normalization for the quota family happens only when observed properties
are parsed by `_parse_dataset_details`, which maps a `0` value of `quota`
to `None`. -/
theorem merge_quota_zero_amended :
    (Dataset.merge DEFAULT_DATASET_PROPS [("quota", PValue.str "0")]).map
      (fun r => lookupKV r "quota") = .ok (some (PValue.str "0")) ∧
    parse_dataset_details ("-\tquota\t0\t-".data) = .ok [("quota", PValue.none)] :=
  ⟨rfl, rfl⟩

/-- C2 counterexample: on model `{"quota": "20"}` and observed
`{"quota": "10"}`, `diff` binds the differing key to the observed value
`"10"`, not to the model's desired value `"20"` as the claim states. -/
theorem diff_observed_value_counterexample :
    Dataset.diff [("quota", PValue.str "20")] [("quota", PValue.str "10")] =
      .ok [("quota", PValue.str "10")] ∧
    lookupKV [("quota", PValue.str "20")] "quota" = some (PValue.str "20") ∧
    PValue.str "10" ≠ PValue.str "20" :=
  ⟨rfl, rfl, by decide⟩

/-- C3 counterexample: with the dataset existing and its observed quota
already equal to the desired `"10"`, the desired-vs-observed diff is empty,
yet the fallback update path still sends the full supplied property set
`{"quota": "10"}` to `set_dataset_properties` (and then correctly reports
the outcome as unchanged). -/
theorem create_exists_full_payload_counterexample :
    create_dataset Option.none [("quota", PValue.str "10")] ⟨true, [("quota", "10")]⟩ =
      .ok ⟨⟨true, false, .unchanged, []⟩, ⟨true, [("quota", "10")]⟩, [[("quota", "10")]]⟩ ∧
    pairsDiff (dataset_props [("quota", PValue.str "10")]) [("quota", "10")] = [] ∧
    ([[("quota", "10")]] : List (List (String × String))) ≠ [[]] :=
  ⟨rfl, rfl, by decide⟩

theorem diffSelect_ok {props other : Props}
    (hsub : ∀ kv ∈ other, (lookupKV props kv.1).isSome = true) :
    ∃ selected : Props, diffSelect props other = .ok selected ∧
      ∀ q : String × PValue, q ∈ selected ↔
        ∃ kv ∈ other, kv.1 = q.1 ∧ lookupKV props q.1 = some q.2 := by
  induction other with
  | nil => exact ⟨[], rfl, by simp⟩
  | cons kv rest ih =>
    obtain ⟨w, hw⟩ := Option.isSome_iff_exists.mp (hsub kv (by simp))
    obtain ⟨sel2, hsel2, hiff⟩ := ih (fun kv2 h2 => hsub kv2 (by simp [h2]))
    refine ⟨(kv.1, w) :: sel2, ?_, ?_⟩
    · unfold diffSelect
      rw [hw, hsel2]
      rfl
    · rintro ⟨q1, q2⟩
      simp only [List.mem_cons]
      constructor
      · rintro (hq | hq)
        · rw [Prod.mk.injEq] at hq
          refine ⟨kv, by simp, hq.1.symm, ?_⟩
          rw [hq.1, hq.2]
          exact hw
        · obtain ⟨kv0, hkv0, h1, h2⟩ := (hiff (q1, q2)).mp hq
          exact ⟨kv0, by simp [hkv0], h1, h2⟩
      · rintro ⟨kv0, hkv0, h1, h2⟩
        rcases hkv0 with h0 | h0
        · subst h0
          left
          rw [Prod.mk.injEq]
          refine ⟨h1.symm, ?_⟩
          rw [h1] at hw
          rw [hw] at h2
          exact (Option.some_injective _ h2).symm
        · right
          exact (hiff (q1, q2)).mpr ⟨kv0, h0, h1, h2⟩

/-- C2 amended: when every observed key is present in the model, `diff`
succeeds and returns exactly the observed pairs whose value differs from
the model's value for the same key: never an extra key, never a missing
differing key, empty exactly when observed agrees with the model on every
observed key — and the value bound to each differing key is the observed
value (not the model's desired value). -/
theorem diff_spec (props other : Props)
    (hsub : ∀ kv ∈ other, (lookupKV props kv.1).isSome = true) :
    ∃ d : Props, Dataset.diff props other = .ok d ∧
      (∀ kv : String × PValue, kv ∈ d ↔
        kv ∈ other ∧ ¬ lookupKV props kv.1 = some kv.2) ∧
      (d = [] ↔ ∀ kv ∈ other, lookupKV props kv.1 = some kv.2) := by
  obtain ⟨selected, hsel, hiff⟩ := diffSelect_ok hsub
  have hcont : ∀ kv : String × PValue, kv ∈ other →
      (selected.contains kv = true ↔ lookupKV props kv.1 = some kv.2) := by
    intro kv hkv
    constructor
    · intro hc
      obtain ⟨kv0, _, h1, h2⟩ := (hiff kv).mp (List.mem_of_elem_eq_true hc)
      exact h2
    · intro hlk
      exact List.elem_eq_true_of_mem ((hiff kv).mpr ⟨kv, hkv, rfl, hlk⟩)
  refine ⟨other.filter (fun kv => ¬ selected.contains kv), ?_, ?_, ?_⟩
  · unfold Dataset.diff
    rw [hsel]
    rfl
  · intro kv
    rw [List.mem_filter]
    constructor
    · rintro ⟨h1, h2⟩
      rw [decide_eq_true_eq] at h2
      refine ⟨h1, ?_⟩
      intro hlk
      exact h2 ((hcont kv h1).mpr hlk)
    · rintro ⟨h1, h2⟩
      refine ⟨h1, ?_⟩
      rw [decide_eq_true_eq]
      intro hc
      exact h2 ((hcont kv h1).mp hc)
  · constructor
    · intro hd kv hkv
      by_contra hne
      have hmem : kv ∈ other.filter (fun kv => ¬ selected.contains kv) := by
        rw [List.mem_filter]
        refine ⟨hkv, ?_⟩
        rw [decide_eq_true_eq]
        intro hc
        exact hne ((hcont kv hkv).mp hc)
      rw [hd] at hmem
      simp at hmem
    · intro hall
      rw [List.filter_eq_nil_iff]
      intro kv hkv
      have hc := (hcont kv hkv).mpr (hall kv hkv)
      simp [hc]
      exact List.mem_of_elem_eq_true hc

theorem exceptBind_ok {ε α β : Type} (a : α) (k : α → Except ε β) :
    ((Except.ok a : Except ε α) >>= k) = k a := rfl

theorem exceptBind_error {ε α β : Type} (e : ε) (k : α → Except ε β) :
    ((Except.error e : Except ε α) >>= k) = Except.error e := rfl

theorem exceptPure_eq {ε α : Type} (a : α) : (pure a : Except ε α) = Except.ok a := rfl

theorem lookupKV_setKV {β : Type} (props : List (String × β)) (k k2 : String) (v : β) :
    lookupKV (setKV props k v) k2 = if k2 = k then some v else lookupKV props k2 := by
  induction props with
  | nil =>
    unfold setKV lookupKV
    rw [List.find?_cons]
    by_cases h : k2 = k
    · subst h
      simp
    · rw [if_neg h]
      have hb : (k == k2) = false := by
        rw [beq_eq_false_iff_ne]
        exact fun hc => h hc.symm
      simp [hb, List.find?]
  | cons kv rest ih =>
    unfold setKV
    by_cases hk : kv.1 = k
    · rw [if_pos hk]
      by_cases h2 : k2 = k
      · subst h2
        unfold lookupKV
        rw [List.find?_cons]
        simp
      · unfold lookupKV
        rw [List.find?_cons, List.find?_cons]
        have hb : (k == k2) = false := by
          rw [beq_eq_false_iff_ne]
          exact fun hc => h2 hc.symm
        have hb2 : (kv.1 == k2) = false := by
          rw [beq_eq_false_iff_ne]
          rw [hk]
          exact fun hc => h2 hc.symm
        simp [hb, hb2, if_neg h2]
    · rw [if_neg hk]
      by_cases h3 : kv.1 = k2
      · unfold lookupKV
        rw [List.find?_cons, List.find?_cons]
        have hb : (kv.1 == k2) = true := by simp [h3]
        have h4 : ¬ k2 = k := by
          rw [← h3]
          exact hk
        simp [hb, if_neg h4]
      · unfold lookupKV at ih ⊢
        rw [List.find?_cons, List.find?_cons]
        have hb : (kv.1 == k2) = false := by
          rw [beq_eq_false_iff_ne]
          exact h3
        simp only [hb]
        exact ih

theorem lookupKV_updateKV_isSome {β : Type} (upd : List (String × β)) :
    ∀ (base : List (String × β)) (k : String),
    ((lookupKV base k).isSome = true ∨ (lookupKV upd k).isSome = true) →
    (lookupKV (updateKV base upd) k).isSome = true := by
  induction upd with
  | nil =>
    intro base k h
    rcases h with h | h
    · exact h
    · simp [lookupKV, List.find?] at h
  | cons u rest ih =>
    intro base k h
    show (lookupKV (updateKV (setKV base u.1 u.2) rest) k).isSome = true
    apply ih
    by_cases hk : k = u.1
    · left
      rw [lookupKV_setKV, if_pos hk]
      rfl
    · rcases h with h | h
      · left
        rw [lookupKV_setKV, if_neg hk]
        exact h
      · right
        unfold lookupKV at h ⊢
        rw [List.find?_cons] at h
        have hb : (u.1 == k) = false := by
          rw [beq_eq_false_iff_ne]
          exact fun hc => hk hc.symm
        rw [hb] at h
        exact h

theorem known_in_defaults :
    ∀ k ∈ KNOWN_PROPS, (lookupKV DEFAULT_DATASET_PROPS k).isSome = true := by decide

theorem merge_ok {changes : Props} : ∀ {acc : Props},
    (∀ kv ∈ changes, KNOWN_PROPS.contains kv.1 = true ∧
      (lookupKV acc kv.1).isSome = true) →
    ∃ r, Dataset.merge acc changes = .ok r := by
  induction changes with
  | nil => exact fun {acc} _ => ⟨acc, rfl⟩
  | cons kv rest ih =>
    intro acc h
    obtain ⟨hk, hs⟩ := h kv (by simp)
    obtain ⟨old, hold⟩ := Option.isSome_iff_exists.mp hs
    have hstep : ∃ w, mergeOne acc kv.1 kv.2 = .ok (setKV acc kv.1 w) := by
      have hm : mergeOne acc kv.1 kv.2 =
          (if ¬ sameType kv.2 old = true then
            if isIntValue old = true then
              if kv.2 = PValue.none then Except.ok (setKV acc kv.1 PValue.none)
              else Except.ok (setKV acc kv.1 kv.2)
            else Except.ok (setKV acc kv.1 kv.2)
          else Except.ok (setKV acc kv.1 kv.2)) := by
        unfold mergeOne
        rw [if_neg (not_not_intro hk), hold]
      rw [hm]
      by_cases h1 : sameType kv.2 old = true
      · rw [if_neg (not_not_intro h1)]
        exact ⟨kv.2, rfl⟩
      · rw [if_pos h1]
        by_cases h2 : isIntValue old = true
        · rw [if_pos h2]
          by_cases h3 : kv.2 = PValue.none
          · rw [if_pos h3]
            exact ⟨PValue.none, rfl⟩
          · rw [if_neg h3]
            exact ⟨kv.2, rfl⟩
        · rw [if_neg h2]
          exact ⟨kv.2, rfl⟩
    obtain ⟨w, hw⟩ := hstep
    have hcons : Dataset.merge acc (kv :: rest) =
        (mergeOne acc kv.1 kv.2) >>= fun acc2 => Dataset.merge acc2 rest := rfl
    rw [hcons, hw, exceptBind_ok]
    apply ih
    intro kv2 hkv2
    obtain ⟨hk2, hs2⟩ := h kv2 (by simp [hkv2])
    refine ⟨hk2, ?_⟩
    rw [lookupKV_setKV]
    by_cases hx : kv2.1 = kv.1
    · rw [if_pos hx]
      rfl
    · rw [if_neg hx]
      exact hs2

theorem pairsDiff_ne_nil_iff (after before : List (String × String)) :
    pairsDiff after before ≠ [] ↔ ∃ kv ∈ after, kv ∉ before := by
  unfold pairsDiff
  rw [Ne, List.filter_eq_nil_iff]
  push_neg
  constructor
  · rintro ⟨kv, hkv, hp⟩
    refine ⟨kv, hkv, ?_⟩
    have hdec := of_decide_eq_true hp
    intro hmem
    exact hdec (List.elem_eq_true_of_mem hmem)
  · rintro ⟨kv, hkv, hmem⟩
    refine ⟨kv, hkv, ?_⟩
    apply decide_eq_true
    intro hc
    exact hmem (List.mem_of_elem_eq_true hc)

/-- C3 amended: during ensure-present, when the dataset already exists
(the `Exists` fallback), the update path sends to `set_dataset_properties`
the full supplied property set (normalized), not only the differing pairs;
it then re-observes and classifies the outcome as modified with
`changed=true` exactly when some observed pair after the update was not
observed before, and as unchanged with `changed=false` otherwise. -/
theorem create_dataset_exists_fallback (initProps : Option Props) (props : Props)
    (api : MockApi) (hex : api.dsExists = true) (hne : props ≠ [])
    (hkeys : ∀ kv ∈ props, KNOWN_PROPS.contains kv.1 = true) :
    ∃ run : CreateRun,
      create_dataset initProps props api = .ok run ∧
      run.sent = [dataset_props props] ∧
      run.api.obs = updateKV api.obs (dataset_props props) ∧
      (run.result.changed = true ↔
        ∃ kv ∈ updateKV api.obs (dataset_props props), kv ∉ api.obs) ∧
      run.result.outcome =
        (if run.result.changed then CreateOutcome.modified else CreateOutcome.unchanged) ∧
      run.result.succeeded = true := by
  have hpresent : ∀ kv ∈ props,
      (lookupKV (seed_with_default_props initProps) kv.1).isSome = true := by
    intro kv hkv
    have hmem : kv.1 ∈ KNOWN_PROPS := List.mem_of_elem_eq_true (hkeys kv hkv)
    have hdef := known_in_defaults kv.1 hmem
    cases initProps with
    | none => exact hdef
    | some p =>
      show (lookupKV (updateKV p DEFAULT_DATASET_PROPS) kv.1).isSome = true
      exact lookupKV_updateKV_isSome DEFAULT_DATASET_PROPS p kv.1 (Or.inr hdef)
  obtain ⟨merged, hmerge⟩ := merge_ok (fun kv hkv => ⟨hkeys kv hkv, hpresent kv hkv⟩)
  have hpay : dataset_props props ≠ [] := by
    intro h0
    apply hne
    unfold dataset_props at h0
    exact List.map_eq_nil_iff.mp h0
  unfold create_dataset
  simp only [if_pos hne, hmerge, hex, if_true, if_neg hpay]
  by_cases hdiff : pairsDiff (updateKV api.obs (dataset_props props)) api.obs ≠ []
  · rw [if_pos hdiff]
    refine ⟨_, rfl, rfl, rfl, ?_, rfl, rfl⟩
    constructor
    · intro _
      exact (pairsDiff_ne_nil_iff _ _).mp hdiff
    · intro _
      rfl
  · rw [if_neg hdiff]
    refine ⟨_, rfl, rfl, rfl, ?_, rfl, rfl⟩
    constructor
    · intro hc
      simp at hc
    · intro hex2
      exact absurd ((pairsDiff_ne_nil_iff _ _).mpr hex2) hdiff

/-! ## Round-trip of parse and serialization (claim C7) -/

/-- Well-formedness of a host value produced by a successful validated
parse: in range and not loopback. -/
def GoodHost (h : Nat) : Prop := h < 4294967296 ∧ isLoopback h = false

/-- Well-formedness of a symbolic name kept in the others view: non-empty,
starts with a letter, and contains no colon. -/
def GoodName (s : List Char) : Prop :=
  s ≠ [] ∧ s.headI.isAlpha = true ∧ ':' ∉ s

/-- Well-formedness of a token kept by `_list_from_addrs_string`. -/
def TokGood (t : List Char) : Prop :=
  t ≠ [] ∧ ':' ∉ t ∧
  ((∃ a, t = '@' :: a ∧ validate_addr a = Except.ok ()) ∨
   (t.headI ≠ '@' ∧ ip4ReMatch t = false))

theorem validate_addr_net {a : List Char} (hs : a.contains '/' = true)
    (h : validate_addr a = .ok ()) : ∃ n, parseIPv4Net a = some n := by
  unfold validate_addr at h
  rw [if_pos hs] at h
  cases hp : parseIPv4Net a with
  | none => rw [hp] at h; simp at h
  | some n => exact ⟨n, rfl⟩

theorem validate_addr_host {a : List Char} (hs : a.contains '/' = false)
    (h : validate_addr a = .ok ()) :
    ∃ v, parseIPv4 a = some v ∧ isLoopback v = false := by
  unfold validate_addr at h
  have hs2 : ¬ (a.contains '/' = true) := by
    rw [hs]
    simp
  rw [if_neg hs2] at h
  cases hp : parseIPv4 a with
  | none => rw [hp] at h; simp at h
  | some v =>
    rw [hp] at h
    have h2 : (if isLoopback v = true then
        Except.error NetaclError.invalidAddressSpecification
        else Except.ok ()) = Except.ok () := h
    cases hl : isLoopback v with
    | false => exact ⟨v, rfl, hl⟩
    | true =>
      rw [hl] at h2
      simp at h2

theorem processToken_good {t : List Char} {out : List (List Char)}
    (hcolon : ':' ∉ t) (h : processToken t = .ok out) :
    ∀ u ∈ out, TokGood u := by
  unfold processToken at h
  split at h
  · simp at h
    subst h
    intro u hu
    simp at hu
  · rename_i hne
    split at h
    · rename_i hat
      split at h
      · rename_i hval
        simp at h
        subst h
        intro u hu
        simp at hu
        rw [hu]
        refine ⟨hne, hcolon, Or.inl ⟨t.tail, ?_, hval⟩⟩
        cases hts : t with
        | nil => exact absurd hts hne
        | cons c rest =>
          rw [hts] at hat
          simp [List.headI] at hat
          rw [hat]
          rfl
      · simp at h
    · rename_i hat
      split at h
      · rename_i hre
        split at h
        · rename_i hval
          simp at h
          subst h
          intro u hu
          simp at hu
          rw [hu]
          refine ⟨by simp, ?_, Or.inl ⟨t, rfl, hval⟩⟩
          intro hc
          rcases List.mem_cons.mp hc with hc | hc
          · exact absurd hc (by decide)
          · exact hcolon hc
        · simp at h
      · rename_i hre
        simp at h
        subst h
        intro u hu
        simp at hu
        rw [hu]
        exact ⟨hne, hcolon, Or.inr ⟨hat, by simpa using hre⟩⟩

theorem tokensFromList_good {ts : List (List Char)} {out : List (List Char)}
    (hcolon : ∀ t ∈ ts, ':' ∉ t) (h : tokensFromList ts = .ok out) :
    ∀ u ∈ out, TokGood u := by
  induction ts generalizing out with
  | nil =>
    unfold tokensFromList at h
    simp at h
    subst h
    intro u hu
    simp at hu
  | cons t rest ih =>
    unfold tokensFromList at h
    cases hp : processToken t with
    | error e => rw [hp, exceptBind_error] at h; simp at h
    | ok out1 =>
      rw [hp, exceptBind_ok] at h
      cases hr : tokensFromList rest with
      | error e => rw [hr, exceptBind_error] at h; simp at h
      | ok out2 =>
        rw [hr, exceptBind_ok, exceptPure_eq] at h
        simp at h
        subst h
        intro u hu
        rw [List.mem_append] at hu
        rcases hu with hu | hu
        · exact processToken_good (hcolon t (by simp)) hp u hu
        · exact ih (fun t2 h2 => hcolon t2 (by simp [h2])) hr u hu

theorem list_from_addrs_string_good {s : List Char} {toks : List (List Char)}
    (h : list_from_addrs_string s = .ok toks) : ∀ t ∈ toks, TokGood t := by
  unfold list_from_addrs_string at h
  exact tokensFromList_good (fun t ht => not_mem_of_mem_splitSep ':' s t ht) h

theorem ip4ReMatch_append_of_parseIPv4 {s : List Char} {v : Nat} (r : List Char)
    (h : parseIPv4 s = some v) : ip4ReMatch (s ++ r) = true := by
  unfold parseIPv4 at h
  split at h
  · rename_i xs a b c d heq
    cases ha : parseOctet a with
    | none => simp [ha] at h
    | some oa =>
    cases hb : parseOctet b with
    | none => simp [ha, hb] at h
    | some ob =>
    cases hc : parseOctet c with
    | none => simp [ha, hb, hc] at h
    | some oc =>
    cases hd : parseOctet d with
    | none => simp [ha, hb, hc, hd] at h
    | some od =>
    have hs : s = a ++ '.' :: (b ++ '.' :: (c ++ '.' :: d)) := by
      conv_lhs => rw [← joinSep_splitSep '.' s]
      rw [heq]
      simp [joinSep]
    rw [hs]
    have hres : a ++ '.' :: (b ++ '.' :: (c ++ '.' :: d)) ++ r =
        a ++ '.' :: (b ++ '.' :: (c ++ '.' :: (d ++ r))) := by
      simp [List.append_assoc]
    rw [hres]
    unfold ip4ReMatch
    rw [List.any_eq_true]
    refine ⟨'.' :: (b ++ '.' :: (c ++ '.' :: (d ++ r))), matchOctet_of_parseOctet ha _, ?_⟩
    rw [List.any_eq_true]
    refine ⟨'.' :: (c ++ '.' :: (d ++ r)), ?_, ?_⟩
    · rw [matchDotOctet_cons]
      exact matchOctet_of_parseOctet hb _
    rw [List.any_eq_true]
    refine ⟨'.' :: (d ++ r), ?_, ?_⟩
    · rw [matchDotOctet_cons]
      exact matchOctet_of_parseOctet hc _
    · rw [matchDotOctet_cons]
      have hmem := matchOctet_of_parseOctet hd r
      cases hmo : matchOctet (d ++ r) with
      | nil => rw [hmo] at hmem; simp at hmem
      | cons x xs2 => simp [hmo]
  · simp at h

/-- Well-formedness of a classified entry of a string-parsed list. -/
def EntryGood : Entry → Prop
  | .host h => GoodHost h
  | .net n => GoodNet n
  | .name s => GoodName s

theorem contains_cons_of_ne {c a : Char} {rest : List Char} (hne : a ≠ c) :
    (a :: rest).contains c = rest.contains c := by
  show ((a :: rest).elem c) = rest.elem c
  rw [List.elem_cons]
  have : (c == a) = false := by
    rw [beq_eq_false_iff_ne]
    exact fun hc => hne hc.symm
  simp [this]

theorem classifyElem_good {t : List Char} {ent : Option Entry}
    (hg : TokGood t) (h : classifyElem t = .ok ent) :
    ∀ e, ent = some e → EntryGood e := by
  obtain ⟨hne, hcolon, hcase⟩ := hg
  unfold classifyElem at h
  split at h
  · rename_i hemp
    exact absurd hemp hne
  · split at h
    · rename_i halpha
      simp at h
      intro e he
      rw [← h] at he
      have he2 : Entry.name t = e := by simpa using he
      rw [← he2]
      exact ⟨hne, by simpa using halpha, hcolon⟩
    · split at h
      · rename_i halpha hslash
        cases hp : parseIPv4Net (if t.headI = '@' then t.tail else t) with
        | none => rw [hp] at h; simp at h
        | some n =>
          rw [hp] at h
          simp at h
          intro e he
          rw [← h] at he
          have he2 : Entry.net n = e := by simpa using he
          rw [← he2]
          exact parseIPv4Net_good hp
      · rename_i halpha hslash
        cases hp : parseIPv4 (if t.headI = '@' then t.tail else t) with
        | none => rw [hp] at h; simp at h
        | some v =>
          rw [hp] at h
          simp at h
          intro e he
          rw [← h] at he
          have he2 : Entry.host v = e := by simpa using he
          rw [← he2]
          rcases hcase with ⟨a, hta, hval⟩ | ⟨hat, hre⟩
          · -- an `@`-prefixed validated token
            have hstrip : (if t.headI = '@' then t.tail else t) = a := by
              rw [hta]
              simp [List.headI]
            rw [hstrip] at hp
            have hsl : a.contains '/' = false := by
              cases hv : a.contains '/' with
              | false => rfl
              | true =>
                exfalso
                apply hslash
                show t.contains '/' = true
                rw [hta, contains_cons_of_ne (by decide : ('@' : Char) ≠ '/')]
                exact hv
            obtain ⟨v2, hv2, hl2⟩ := validate_addr_host hsl hval
            have hvv : v = v2 := by
              rw [hp] at hv2
              simpa using hv2
            rw [hvv]
            exact ⟨parseIPv4_lt (show parseIPv4 a = some v2 from hvv ▸ hp), hl2⟩
          · -- a verbatim name token: its successful host parse contradicts
            -- the failed regex match
            exfalso
            have hstrip : (if t.headI = '@' then t.tail else t) = t := by
              rw [if_neg hat]
            rw [hstrip] at hp
            have hmatch := ip4ReMatch_of_parseIPv4 hp
            rw [hre] at hmatch
            exact absurd hmatch (by simp)

theorem entriesFromElems_good {l : List (List Char)} {es : List Entry}
    (hl : ∀ t ∈ l, TokGood t) (h : entriesFromElems l = .ok es) :
    ∀ e ∈ es, EntryGood e := by
  induction l generalizing es with
  | nil =>
    unfold entriesFromElems at h
    simp at h
    subst h
    intro e he
    simp at he
  | cons t rest ih =>
    unfold entriesFromElems at h
    cases hp : classifyElem t with
    | error err => rw [hp, exceptBind_error] at h; simp at h
    | ok ent =>
      rw [hp, exceptBind_ok] at h
      cases hr : entriesFromElems rest with
      | error err => rw [hr, exceptBind_error] at h; simp at h
      | ok es2 =>
        rw [hr, exceptBind_ok, exceptPure_eq] at h
        simp at h
        subst h
        intro e he
        rw [List.mem_append] at he
        rcases he with he | he
        · cases ent with
          | none => simp at he
          | some e0 =>
            have he2 : e0 = e := (by simpa using he : e = e0).symm
            exact he2 ▸ classifyElem_good (hl t (by simp)) hp e0 rfl
        · exact ih (fun t2 h2 => hl t2 (by simp [h2])) hr e he

/-- The three views of a successfully string-parsed list are well
formed. -/
theorem mk_str_good {s : List Char} {L : IPNetHostList}
    (h : mkIPNetHostList (.str s) = .ok L) :
    (∀ x ∈ L.hosts, GoodHost x) ∧ (∀ n ∈ L.nets, GoodNet n) ∧
    (∀ m ∈ L.others, GoodName m) := by
  have h0 : (do
      let l ← list_from_addrs_string s
      let tr ← split_nets_and_hosts l
      pure (⟨l, tr.1, tr.2.1, tr.2.2⟩ : IPNetHostList) :
        Except NetaclError IPNetHostList) = Except.ok L := h
  clear h
  cases hp : list_from_addrs_string s with
  | error err => rw [hp, exceptBind_error] at h0; simp at h0
  | ok toks =>
    rw [hp, exceptBind_ok] at h0
    have h : (do
        let tr ← split_nets_and_hosts toks
        pure (⟨toks, tr.1, tr.2.1, tr.2.2⟩ : IPNetHostList) :
          Except NetaclError IPNetHostList) = Except.ok L := h0
    clear h0
    unfold split_nets_and_hosts at h
    cases hq : entriesFromElems toks with
    | error err => rw [hq] at h; simp [exceptBind_error] at h
    | ok es =>
      rw [hq] at h
      have hgood : ∀ e ∈ es, EntryGood e :=
        entriesFromElems_good (list_from_addrs_string_good hp) hq
      have hL : L = ⟨toks, es.filterMap hostOfEntry, es.filterMap netOfEntry,
          es.filterMap nameOfEntry⟩ := by
        have h2 : (Except.ok (es.filterMap hostOfEntry, es.filterMap netOfEntry,
            es.filterMap nameOfEntry) : Except NetaclError _) >>=
            (fun tr => (pure (⟨toks, tr.1, tr.2.1, tr.2.2⟩ : IPNetHostList) :
              Except NetaclError IPNetHostList)) = Except.ok L := h
        rw [exceptBind_ok, exceptPure_eq] at h2
        simpa using h2.symm
      subst hL
      refine ⟨?_, ?_, ?_⟩
      · intro x hx
        simp only [List.mem_filterMap] at hx
        obtain ⟨e, he, hee⟩ := hx
        have := hgood e he
        cases e with
        | host hh => simp [hostOfEntry] at hee; exact hee ▸ this
        | net n => simp [hostOfEntry] at hee
        | name m => simp [hostOfEntry] at hee
      · intro x hx
        simp only [List.mem_filterMap] at hx
        obtain ⟨e, he, hee⟩ := hx
        have := hgood e he
        cases e with
        | host hh => simp [netOfEntry] at hee
        | net n => simp [netOfEntry] at hee; exact hee ▸ this
        | name m => simp [netOfEntry] at hee
      · intro x hx
        simp only [List.mem_filterMap] at hx
        obtain ⟨e, he, hee⟩ := hx
        have := hgood e he
        cases e with
        | host hh => simp [nameOfEntry] at hee
        | net n => simp [nameOfEntry] at hee
        | name m => simp [nameOfEntry] at hee; exact hee ▸ this

theorem not_mem_printIPv4_char {c : Char} {n : Nat} (hn : n < 4294967296)
    (hc1 : c.isDigit = false) (hc2 : c ≠ '.') : c ∉ printIPv4 n := by
  intro hmem
  rcases mem_printIPv4 hn hmem with hd | hd
  · rw [hd] at hc1
    simp at hc1
  · exact hc2 hd

theorem mem_printNet {c : Char} {n : IPv4Net} (hg : GoodNet n)
    (hmem : c ∈ printNet n) : c.isDigit = true ∨ c = '.' ∨ c = '/' := by
  unfold printNet at hmem
  rcases List.mem_append.mp hmem with h | h
  · rcases mem_printIPv4 hg.1 h with h | h
    · exact Or.inl h
    · exact Or.inr (Or.inl h)
  · rcases List.mem_cons.mp h with h | h
    · exact Or.inr (Or.inr h)
    · have hp33 : n.plen < 33 := by
        have := hg.2.1
        omega
      have hall := printPlen_all_digits n.plen hp33
      rw [List.all_eq_true] at hall
      exact Or.inl (hall c h)

theorem slash_mem_printNet (n : IPv4Net) : '/' ∈ printNet n := by
  unfold printNet
  rw [List.mem_append]
  exact Or.inr (by simp)

theorem processToken_net {n : IPv4Net} (hg : GoodNet n) :
    processToken ('@' :: printNet n) = .ok ['@' :: printNet n] := by
  have hval : validate_addr (printNet n) = .ok () := by
    unfold validate_addr
    rw [if_pos (List.elem_eq_true_of_mem (slash_mem_printNet n))]
    rw [parseIPv4Net_printNet hg]
  unfold processToken
  rw [if_neg (by simp), if_pos (by simp [List.headI])]
  rw [show ('@' :: printNet n).tail = printNet n from rfl, hval]

theorem processToken_host {v : Nat} (hg : GoodHost v) :
    processToken ('@' :: printIPv4 v) = .ok ['@' :: printIPv4 v] := by
  have hsl : (printIPv4 v).contains '/' = false := by
    cases hv : (printIPv4 v).contains '/' with
    | false => rfl
    | true =>
      exfalso
      exact not_mem_printIPv4_char hg.1 (by decide) (by decide)
        (List.mem_of_elem_eq_true hv)
  have hval : validate_addr (printIPv4 v) = .ok () := by
    unfold validate_addr
    rw [if_neg (by rw [hsl]; simp), parseIPv4_printIPv4 hg.1]
    show (if isLoopback v = true then Except.error NetaclError.invalidAddressSpecification
      else Except.ok ()) = Except.ok ()
    rw [if_neg (by rw [hg.2]; simp)]
  unfold processToken
  rw [if_neg (by simp), if_pos (by simp [List.headI])]
  rw [show ('@' :: printIPv4 v).tail = printIPv4 v from rfl, hval]

theorem processToken_name {m : List Char} (hg : GoodName m) :
    processToken m = .ok [m] := by
  obtain ⟨hne, halpha, hcolon⟩ := hg
  have hat : m.headI ≠ '@' := by
    intro hc
    rw [hc] at halpha
    simp at halpha
  have hre : ip4ReMatch m = false := by
    cases hv : ip4ReMatch m with
    | false => rfl
    | true =>
      exfalso
      obtain ⟨a, rest, hm, hdig⟩ := ip4ReMatch_head_digit hv
      rw [hm] at halpha
      simp [List.headI] at halpha
      rw [digit_not_alpha a hdig] at halpha
      exact absurd halpha (by simp)
  unfold processToken
  rw [if_neg hne, if_neg hat, if_neg (by rw [hre]; simp)]

theorem classifyElem_net {n : IPv4Net} (hg : GoodNet n) :
    classifyElem ('@' :: printNet n) = .ok (some (.net n)) := by
  unfold classifyElem
  rw [if_neg (by simp)]
  rw [if_neg (by simp [List.headI])]
  rw [if_pos (List.elem_eq_true_of_mem (by
    rw [List.mem_cons]
    exact Or.inr (slash_mem_printNet n)))]
  rw [if_pos (by simp [List.headI])]
  rw [show ('@' :: printNet n).tail = printNet n from rfl, parseIPv4Net_printNet hg]

theorem classifyElem_host {v : Nat} (hg : GoodHost v) :
    classifyElem ('@' :: printIPv4 v) = .ok (some (.host v)) := by
  have hsl : ('@' :: printIPv4 v).contains '/' = false := by
    cases hv : ('@' :: printIPv4 v).contains '/' with
    | false => rfl
    | true =>
      exfalso
      have hmem := List.mem_of_elem_eq_true hv
      rcases List.mem_cons.mp hmem with hc | hc
      · exact absurd hc (by decide)
      · exact not_mem_printIPv4_char hg.1 (by decide) (by decide) hc
  unfold classifyElem
  rw [if_neg (by simp)]
  rw [if_neg (by simp [List.headI])]
  rw [if_neg (by rw [hsl]; simp)]
  rw [if_pos (by simp [List.headI])]
  rw [show ('@' :: printIPv4 v).tail = printIPv4 v from rfl, parseIPv4_printIPv4 hg.1]

theorem classifyElem_name {m : List Char} (hg : GoodName m) :
    classifyElem m = .ok (some (.name m)) := by
  unfold classifyElem
  rw [if_neg hg.1, if_pos hg.2.1]

theorem tokensFromList_singles {ts : List (List Char)}
    (h : ∀ t ∈ ts, processToken t = .ok [t]) : tokensFromList ts = .ok ts := by
  induction ts with
  | nil => rfl
  | cons t rest ih =>
    unfold tokensFromList
    rw [h t (by simp), exceptBind_ok,
      ih (fun u hu => h u (by simp [hu])), exceptBind_ok, exceptPure_eq]
    rfl

theorem entriesFromElems_append {a b : List (List Char)} {ea eb : List Entry}
    (ha : entriesFromElems a = .ok ea) (hb : entriesFromElems b = .ok eb) :
    entriesFromElems (a ++ b) = .ok (ea ++ eb) := by
  induction a generalizing ea with
  | nil =>
    have h0 : ea = [] := by
      unfold entriesFromElems at ha
      simpa using ha
    subst h0
    simpa using hb
  | cons t rest ih =>
    unfold entriesFromElems at ha
    have hgoal : entriesFromElems ((t :: rest) ++ b) = (do
        let ent ← classifyElem t
        let rest2 ← entriesFromElems (rest ++ b)
        pure ((match ent with | some x => [x] | none => []) ++ rest2)) := rfl
    rw [hgoal]
    cases hp : classifyElem t with
    | error err => rw [hp, exceptBind_error] at ha; simp at ha
    | ok ent =>
      rw [hp] at ha
      rw [exceptBind_ok] at ha
      rw [exceptBind_ok]
      cases hr : entriesFromElems rest with
      | error err => rw [hr, exceptBind_error] at ha; simp at ha
      | ok er =>
        rw [hr, exceptBind_ok, exceptPure_eq] at ha
        have hrest := ih hr
        rw [hrest, exceptBind_ok, exceptPure_eq]
        cases ent with
        | none =>
          have ha3 : er = ea := by simpa using ha
          rw [← ha3]
          rfl
        | some x =>
          have ha3 : x :: er = ea := by simpa using ha
          rw [← ha3]
          rfl

theorem entriesFromElems_nets {ns : List IPv4Net} (h : ∀ n ∈ ns, GoodNet n) :
    entriesFromElems (ns.map (fun n => '@' :: printNet n)) = .ok (ns.map Entry.net) := by
  induction ns with
  | nil => rfl
  | cons n rest ih =>
    show entriesFromElems (('@' :: printNet n) :: rest.map (fun n => '@' :: printNet n)) = _
    unfold entriesFromElems
    rw [classifyElem_net (h n (by simp)), exceptBind_ok,
      ih (fun m hm => h m (by simp [hm])), exceptBind_ok, exceptPure_eq]
    rfl

theorem entriesFromElems_hosts {hs : List Nat} (h : ∀ v ∈ hs, GoodHost v) :
    entriesFromElems (hs.map (fun v => '@' :: printIPv4 v)) = .ok (hs.map Entry.host) := by
  induction hs with
  | nil => rfl
  | cons v rest ih =>
    show entriesFromElems (('@' :: printIPv4 v) :: rest.map (fun v => '@' :: printIPv4 v)) = _
    unfold entriesFromElems
    rw [classifyElem_host (h v (by simp)), exceptBind_ok,
      ih (fun m hm => h m (by simp [hm])), exceptBind_ok, exceptPure_eq]
    rfl

theorem entriesFromElems_names {os : List (List Char)} (h : ∀ m ∈ os, GoodName m) :
    entriesFromElems os = .ok (os.map Entry.name) := by
  induction os with
  | nil => rfl
  | cons m rest ih =>
    unfold entriesFromElems
    rw [classifyElem_name (h m (by simp)), exceptBind_ok,
      ih (fun u hu => h u (by simp [hu])), exceptBind_ok, exceptPure_eq]
    rfl

theorem filterMap_of_none {α β : Type} {f : α → Option β} {l : List α}
    (h : ∀ a ∈ l, f a = none) : l.filterMap f = [] := by
  induction l with
  | nil => rfl
  | cons a rest ih =>
    rw [List.filterMap_cons, h a (by simp), ih (fun x hx => h x (by simp [hx]))]

theorem filterMap_of_some {α β : Type} {f : α → Option β} {g : α → β} {l : List α}
    (h : ∀ a ∈ l, f a = some (g a)) : l.filterMap f = l.map g := by
  induction l with
  | nil => rfl
  | cons a rest ih =>
    rw [List.filterMap_cons, h a (by simp), List.map_cons,
      ih (fun x hx => h x (by simp [hx]))]

theorem hostView_nets (ns : List IPv4Net) :
    (ns.map Entry.net).filterMap hostOfEntry = [] := by
  induction ns with
  | nil => rfl
  | cons n r ih => exact ih

theorem hostView_hosts (hs : List Nat) :
    (hs.map Entry.host).filterMap hostOfEntry = hs := by
  induction hs with
  | nil => rfl
  | cons v r ih =>
    show v :: (r.map Entry.host).filterMap hostOfEntry = v :: r
    rw [ih]

theorem hostView_names (os : List (List Char)) :
    (os.map Entry.name).filterMap hostOfEntry = [] := by
  induction os with
  | nil => rfl
  | cons m r ih => exact ih

theorem netView_nets (ns : List IPv4Net) :
    (ns.map Entry.net).filterMap netOfEntry = ns := by
  induction ns with
  | nil => rfl
  | cons n r ih =>
    show n :: (r.map Entry.net).filterMap netOfEntry = n :: r
    rw [ih]

theorem netView_hosts (hs : List Nat) :
    (hs.map Entry.host).filterMap netOfEntry = [] := by
  induction hs with
  | nil => rfl
  | cons v r ih => exact ih

theorem netView_names (os : List (List Char)) :
    (os.map Entry.name).filterMap netOfEntry = [] := by
  induction os with
  | nil => rfl
  | cons m r ih => exact ih

theorem nameView_nets (ns : List IPv4Net) :
    (ns.map Entry.net).filterMap nameOfEntry = [] := by
  induction ns with
  | nil => rfl
  | cons n r ih => exact ih

theorem nameView_hosts (hs : List Nat) :
    (hs.map Entry.host).filterMap nameOfEntry = [] := by
  induction hs with
  | nil => rfl
  | cons v r ih => exact ih

theorem nameView_names (os : List (List Char)) :
    (os.map Entry.name).filterMap nameOfEntry = os := by
  induction os with
  | nil => rfl
  | cons m r ih =>
    show m :: (r.map Entry.name).filterMap nameOfEntry = m :: r
    rw [ih]

theorem parts_colon_free {hs : List Nat} {ns : List IPv4Net} {os : List (List Char)}
    (hH : ∀ x ∈ hs, GoodHost x) (hN : ∀ n ∈ ns, GoodNet n)
    (hO : ∀ m ∈ os, GoodName m) :
    ∀ p ∈ ns.map (fun n => '@' :: printNet n) ++
      hs.map (fun v => '@' :: printIPv4 v) ++ os, ':' ∉ p := by
  intro p hp hmem
  rcases List.mem_append.mp hp with h1 | h2
  · rcases List.mem_append.mp h1 with ha | hb
    · obtain ⟨n, hn, rfl⟩ := List.mem_map.mp ha
      rcases List.mem_cons.mp hmem with hc | hc
      · exact absurd hc (by decide)
      · rcases mem_printNet (hN n hn) hc with hd | hd | hd
        · exact absurd hd (by decide)
        · exact absurd hd (by decide)
        · exact absurd hd (by decide)
    · obtain ⟨v, hv, rfl⟩ := List.mem_map.mp hb
      rcases List.mem_cons.mp hmem with hc | hc
      · exact absurd hc (by decide)
      · exact not_mem_printIPv4_char (hH v hv).1 (by decide) (by decide) hc
  · exact (hO p h2).2.2 hmem

theorem mk_of_good_parts {hs : List Nat} {ns : List IPv4Net} {os : List (List Char)}
    (hH : ∀ x ∈ hs, GoodHost x) (hN : ∀ n ∈ ns, GoodNet n)
    (hO : ∀ m ∈ os, GoodName m)
    (hnil : ns.map (fun n => '@' :: printNet n) ++
      hs.map (fun v => '@' :: printIPv4 v) ++ os ≠ []) :
    mkIPNetHostList (.str (joinSep ':' (ns.map (fun n => '@' :: printNet n) ++
      hs.map (fun v => '@' :: printIPv4 v) ++ os))) =
    .ok ⟨ns.map (fun n => '@' :: printNet n) ++
      hs.map (fun v => '@' :: printIPv4 v) ++ os, hs, ns, os⟩ := by
  have hsplit : splitSep ':' (joinSep ':' (ns.map (fun n => '@' :: printNet n) ++
      hs.map (fun v => '@' :: printIPv4 v) ++ os)) =
      ns.map (fun n => '@' :: printNet n) ++
      hs.map (fun v => '@' :: printIPv4 v) ++ os :=
    splitSep_joinSep ':' _ hnil (parts_colon_free hH hN hO)
  have htoks : ∀ t ∈ ns.map (fun n => '@' :: printNet n) ++
      hs.map (fun v => '@' :: printIPv4 v) ++ os, processToken t = .ok [t] := by
    intro t ht
    rcases List.mem_append.mp ht with h1 | h2
    · rcases List.mem_append.mp h1 with ha | hb
      · obtain ⟨n, hn, rfl⟩ := List.mem_map.mp ha
        exact processToken_net (hN n hn)
      · obtain ⟨v, hv, rfl⟩ := List.mem_map.mp hb
        exact processToken_host (hH v hv)
    · exact processToken_name (hO t h2)
  have hlist : list_from_addrs_string (joinSep ':'
      (ns.map (fun n => '@' :: printNet n) ++
        hs.map (fun v => '@' :: printIPv4 v) ++ os)) =
      .ok (ns.map (fun n => '@' :: printNet n) ++
        hs.map (fun v => '@' :: printIPv4 v) ++ os) := by
    unfold list_from_addrs_string
    rw [hsplit]
    exact tokensFromList_singles htoks
  have hents : entriesFromElems (ns.map (fun n => '@' :: printNet n) ++
      hs.map (fun v => '@' :: printIPv4 v) ++ os) =
      .ok (ns.map Entry.net ++ hs.map Entry.host ++ os.map Entry.name) :=
    entriesFromElems_append (entriesFromElems_append (entriesFromElems_nets hN)
      (entriesFromElems_hosts hH)) (entriesFromElems_names hO)
  have hviews : split_nets_and_hosts (ns.map (fun n => '@' :: printNet n) ++
      hs.map (fun v => '@' :: printIPv4 v) ++ os) = .ok (hs, ns, os) := by
    unfold split_nets_and_hosts
    rw [hents, exceptBind_ok, exceptPure_eq]
    simp only [List.filterMap_append, hostView_nets, hostView_hosts, hostView_names,
      netView_nets, netView_hosts, netView_names, nameView_nets, nameView_hosts,
      nameView_names, List.append_nil, List.nil_append]
  show (do
      let l ← list_from_addrs_string (joinSep ':'
        (ns.map (fun n => '@' :: printNet n) ++
          hs.map (fun v => '@' :: printIPv4 v) ++ os))
      let tr ← split_nets_and_hosts l
      pure (⟨l, tr.1, tr.2.1, tr.2.2⟩ : IPNetHostList) :
        Except NetaclError IPNetHostList) = _
  rw [hlist, exceptBind_ok, hviews, exceptBind_ok, exceptPure_eq]

/-- C7: if parsing an address-list string succeeds with object `L`, then
parsing the serialized form `str(L)` succeeds again and yields the same
hosts, nets and others views. -/
theorem parse_serialize_roundtrip {s : List Char} {L : IPNetHostList}
    (h : mkIPNetHostList (.str s) = .ok L) :
    ∃ L2, mkIPNetHostList (.str (ipListStr L)) = .ok L2 ∧
      L2.hosts = L.hosts ∧ L2.nets = L.nets ∧ L2.others = L.others := by
  obtain ⟨hH, hN, hO⟩ := mk_str_good h
  by_cases hnil : L.nets.map (fun n => '@' :: printNet n) ++
      L.hosts.map (fun v => '@' :: printIPv4 v) ++ L.others = []
  · have h1 : L.nets = [] := by
      cases hx : L.nets with
      | nil => rfl
      | cons a r => rw [hx] at hnil; simp at hnil
    have h2 : L.hosts = [] := by
      cases hx : L.hosts with
      | nil => rfl
      | cons a r => rw [hx] at hnil; simp at hnil
    have h3 : L.others = [] := by
      cases hx : L.others with
      | nil => rfl
      | cons a r => rw [hx] at hnil; simp at hnil
    have hstr : ipListStr L = [] := by
      unfold ipListStr
      rw [h1, h2, h3]
      rfl
    refine ⟨⟨[], [], [], []⟩, ?_, h2.symm, h1.symm, h3.symm⟩
    rw [hstr]
    rfl
  · refine ⟨⟨L.nets.map (fun n => '@' :: printNet n) ++
      L.hosts.map (fun v => '@' :: printIPv4 v) ++ L.others,
      L.hosts, L.nets, L.others⟩, ?_, rfl, rfl, rfl⟩
    exact mk_of_good_parts hH hN hO hnil

theorem raise_on_conflict_spec_witness :
    ∃ h, raise_on_conflict
      ⟨["@1.2.3.4".data], [16909060], [], []⟩
      ⟨["@1.2.3.4".data], [16909060], [], []⟩ = some (.hostInBoth h) :=
  (raise_on_conflict_spec
      ⟨["@1.2.3.4".data], [16909060], [], []⟩
      ⟨["@1.2.3.4".data], [16909060], [], []⟩).2.2
    ⟨16909060, by decide, by decide⟩

theorem diff_spec_witness :
    ∃ d : Props,
      Dataset.diff [("quota", PValue.str "20")] [("quota", PValue.str "10")] = .ok d ∧
      (∀ kv : String × PValue, kv ∈ d ↔
        kv ∈ [("quota", PValue.str "10")] ∧
        ¬ lookupKV [("quota", PValue.str "20")] kv.1 = some kv.2) ∧
      (d = [] ↔ ∀ kv ∈ [("quota", PValue.str "10")],
        lookupKV [("quota", PValue.str "20")] kv.1 = some kv.2) :=
  diff_spec [("quota", PValue.str "20")] [("quota", PValue.str "10")] (by decide)

theorem create_dataset_exists_fallback_witness :
    ∃ run : CreateRun,
      create_dataset none [("quota", PValue.str "10")] ⟨true, []⟩ = .ok run ∧
      run.sent = [dataset_props [("quota", PValue.str "10")]] ∧
      run.api.obs = updateKV [] (dataset_props [("quota", PValue.str "10")]) ∧
      (run.result.changed = true ↔
        ∃ kv ∈ updateKV [] (dataset_props [("quota", PValue.str "10")]),
          kv ∉ ([] : List (String × String))) ∧
      run.result.outcome =
        (if run.result.changed then CreateOutcome.modified else CreateOutcome.unchanged) ∧
      run.result.succeeded = true :=
  create_dataset_exists_fallback none [("quota", PValue.str "10")] ⟨true, []⟩ rfl
    (by decide) (by decide)

theorem destroy_dataset_recursive_spec_witness :
    ∃ final : DestroyState,
      destroy_dataset (0 + 2) ⟨["p".data, "p/a".data, "p/b".data]⟩ ("p".data) true =
        .ok (final,
          (sortAsc (strictDescendants ⟨["p".data, "p/a".data, "p/b".data]⟩
            ("p".data))).reverse ++ ["p".data]) ∧
      ((sortAsc (strictDescendants ⟨["p".data, "p/a".data, "p/b".data]⟩
          ("p".data))).reverse).Pairwise (fun a b => lexLt b a = true) ∧
      ∀ d ∈ strictDescendants ⟨["p".data, "p/a".data, "p/b".data]⟩ ("p".data),
        d ∈ (sortAsc (strictDescendants ⟨["p".data, "p/a".data, "p/b".data]⟩
          ("p".data))).reverse :=
  destroy_dataset_recursive_spec 0 ⟨["p".data, "p/a".data, "p/b".data]⟩ ("p".data)
    (by decide) (by decide)

theorem parse_serialize_roundtrip_witness :
    ∃ L2, mkIPNetHostList (.str (ipListStr
      (⟨["@10.0.0.0/8".data, "@1.2.3.4".data, "alpha".data],
        [16909060], [⟨167772160, 8⟩], ["alpha".data]⟩ : IPNetHostList))) = .ok L2 ∧
      L2.hosts = [16909060] ∧ L2.nets = [⟨167772160, 8⟩] ∧
      L2.others = ["alpha".data] :=
  parse_serialize_roundtrip
    (show mkIPNetHostList (.str "10.0.0.0/8:1.2.3.4:alpha".data) =
      .ok ⟨["@10.0.0.0/8".data, "@1.2.3.4".data, "alpha".data],
        [16909060], [⟨167772160, 8⟩], ["alpha".data]⟩ from by rfl)
